import Mathlib

/-!
Verification development for the fingertip-detection pipeline of the
canvas-cowork repository.  The source scripts (detect_fingers_peaks.py,
detect_fingers_polar.py, detect_fingers_v1.py, detect_fingers_v2.py) are
shallowly embedded below: masks become lists of pixel-value rows, contours
become lists of integer points, the numeric float computations become exact
real- or ordered-field arithmetic, and the external library calls
(cv2.threshold / cv2.bitwise_not / cv2.findContours / scipy.signal.find_peaks /
np.pad + np.convolve) are modelled at the granularity of their documented
contracts, as noted in the doc comments.

The file is organized with all definitions first and all theorems after them.
The comparison and branching logic of the scripts is kept polymorphic over a
linear ordered field so that it can be instantiated both at the real numbers
(the idealization of the scripts' float arithmetic, used by the claims about
the actual pipeline) and at the rationals (used to evaluate the algorithms on
concrete witness inputs).
-/

/-- Pixel coordinates: an integer image point (x, y), with y growing downward
as in image coordinates. -/
abbrev Point := ℤ × ℤ

/-- Binary image mask after thresholding: rows of 8-bit pixel values
(255 = foreground, 0 = background). -/
abbrev Mask := List (List ℕ)

namespace Silhouette

/-- Pixel value at row i, column j; out-of-range reads give 0 (background). -/
def getPix (m : Mask) (i j : ℕ) : ℕ := (m.getD i []).getD j 0

/-- Top-left corner mask[0,0]. -/
def cornerTL (m : Mask) : ℕ := getPix m 0 0

/-- Bottom-right corner mask[-1,-1] (Python negative indexing reads the last
row and last column). -/
def cornerBR (m : Mask) : ℕ :=
  getPix m (m.length - 1) ((m.getD (m.length - 1) []).length - 1)

/-- Top-right corner mask[0,-1]. -/
def cornerTR (m : Mask) : ℕ := getPix m 0 ((m.getD 0 []).length - 1)

/-- Bottom-left corner mask[-1,0]. -/
def cornerBL (m : Mask) : ℕ := getPix m (m.length - 1) 0

/-- Background-polarity test used by the source (detect_fingers_peaks.py line
30, detect_fingers_polar.py line 25, detect_fingers_v2.py line 27):
mask[0,0] == 255 and mask[-1,-1] == 255. -/
def twoCornerCond (m : Mask) : Prop := cornerTL m = 255 ∧ cornerBR m = 255

instance (m : Mask) : Decidable (twoCornerCond m) := by
  unfold twoCornerCond; infer_instance

/-- Model of cv2.bitwise_not on an 8-bit mask: each pixel value v becomes
255 - v, so 255 and 0 swap. -/
def maskNot (m : Mask) : Mask := m.map (fun row => row.map (fun v => 255 - v))

/-- Polarity fix applied after Otsu thresholding, translated from
detect_fingers_peaks.py lines 30-32: invert the mask when the two tested
corners are foreground; otherwise keep it unchanged. -/
def polarityFix (m : Mask) : Mask := if twoCornerCond m then maskNot m else m

/-- Condition claimed by the spec (section 4.1): all four image corners are
classified foreground after thresholding.  This definition follows the spec's
words and exists to be compared against the source's twoCornerCond. -/
def allFourCornersFg (m : Mask) : Prop :=
  cornerTL m = 255 ∧ cornerTR m = 255 ∧ cornerBL m = 255 ∧ cornerBR m = 255

instance (m : Mask) : Decidable (allFourCornersFg m) := by
  unfold allFourCornersFg; infer_instance

/-- Number of foreground (nonzero) pixels of a mask. -/
def fgCount (m : Mask) : ℕ := (m.map (fun row => row.countP (fun v => v != 0))).sum

/-- Foreground pixel that touches the background or the image border through a
4-neighbor.  cv2.findContours (RETR_EXTERNAL) traces its contours through
exactly such pixels. -/
def isBoundaryPix (m : Mask) (i j : ℕ) : Prop :=
  getPix m i j ≠ 0 ∧
    (i = 0 ∨ j = 0 ∨ getPix m (i - 1) j = 0 ∨ getPix m i (j - 1) = 0 ∨
      getPix m (i + 1) j = 0 ∨ getPix m i (j + 1) = 0)

instance (m : Mask) (i j : ℕ) : Decidable (isBoundaryPix m i j) := by
  unfold isBoundaryPix; infer_instance

/-- Model of the cv2.findContours call at the granularity the claims need: the
boundary pixels of the mask.  The lemmas boundaryPixels_eq_nil_of_fgCount_zero
and boundaryPixels_ne_nil_of_fg establish that this list is empty exactly when
the mask has no foreground pixel, matching the documented behavior that
findContours returns at least one contour iff some foreground pixel exists. -/
def boundaryPixels (m : Mask) : List (ℕ × ℕ) :=
  (List.range m.length).flatMap (fun i =>
    ((List.range (m.getD i []).length).filter
      (fun j => decide (isBoundaryPix m i j))).map (fun j => (i, j)))

/-- Error taxonomy of the spec, section 7; the source scripts surface these
failures as early returns that produce no FingertipSet. -/
inductive DetectError where
  | emptyMask : DetectError
  | noContour : DetectError
deriving DecidableEq

/-- Final pipeline output (spec section 3). -/
structure FingertipSet where
  points : List Point
  count : ℕ
deriving DecidableEq

/-- Control flow of detect_fingers_peaks.py lines 37-41: when findContours
returns no contours the run terminates as a failure and never produces a
FingertipSet; the rest of the pipeline is abstracted as a continuation k
running on the found boundary. -/
def runFromMask (m : Mask) (k : List (ℕ × ℕ) → FingertipSet) :
    Except DetectError FingertipSet :=
  match boundaryPixels m with
  | [] => .error .emptyMask
  | ps => .ok (k ps)

end Silhouette

namespace Detect

variable {α : Type} [LinearOrderedField α]

/-- Ascending comparison by x coordinate, the key of the final sort of
detect_fingers_peaks.py line 83. -/
def byXAsc : Point → Point → Prop := fun p q => p.1 ≤ q.1

instance : DecidableRel byXAsc := fun p q => inferInstanceAs (Decidable (p.1 ≤ q.1))

instance : IsTotal Point byXAsc := ⟨fun p q => le_total p.1 q.1⟩

instance : IsTrans Point byXAsc := ⟨fun _ _ _ h1 h2 => le_trans h1 h2⟩

/-- Descending comparison by distance from the palm center, the key of the
over-detection sort of detect_fingers_peaks.py line 79 (reverse=True). -/
def byDistDesc (dKey : Point → α) : Point → Point → Prop := fun p q => dKey q ≤ dKey p

instance (dKey : Point → α) : DecidableRel (byDistDesc dKey) :=
  fun p q => inferInstanceAs (Decidable (dKey q ≤ dKey p))

instance (dKey : Point → α) : IsTotal Point (byDistDesc dKey) :=
  ⟨fun p q => le_total (dKey q) (dKey p)⟩

instance (dKey : Point → α) : IsTrans Point (byDistDesc dKey) :=
  ⟨fun _ _ _ h1 h2 => le_trans h2 h1⟩

/-- Descending comparison of peak indices by signal value, modelling the
priority order (highest peak first) in which scipy's distance filter processes
peaks. -/
def byHeightDesc (x : List α) : ℕ → ℕ → Prop := fun a b => x.getD b 0 ≤ x.getD a 0

instance (x : List α) : DecidableRel (byHeightDesc x) :=
  fun a b => inferInstanceAs (Decidable (x.getD b 0 ≤ x.getD a 0))

instance (x : List α) : IsTotal ℕ (byHeightDesc x) :=
  ⟨fun a b => le_total (x.getD b 0) (x.getD a 0)⟩

instance (x : List α) : IsTrans ℕ (byHeightDesc x) :=
  ⟨fun _ _ _ h1 h2 => le_trans h2 h1⟩

/-- Translation of np.pad(distances, (10, 10), mode='wrap') as used at
detect_fingers_peaks.py line 57 with window_size = 21: the last 10 samples are
prepended and the first 10 appended (the mask contours this runs on have far
more than 10 samples, so a single wrap copy suffices as in the source). -/
def padWrap (s : List α) : List α := s.drop (s.length - 10) ++ s ++ s.take 10

/-- Moving-average smoothing of detect_fingers_peaks.py lines 55-58:
convolution of the wrap-padded signal with a constant kernel of length 21 and
weight 1/21 in 'valid' mode, which yields one output per input sample, namely
the mean of the 21 padded samples starting at that position. -/
def smooth (s : List α) : List α :=
  (List.range s.length).map (fun i => (((padWrap s).drop i).take 21).sum / 21)

/-- Plateau scan of scipy.signal._local_maxima_1d: starting at index i, the
first index j with j = iMax or x[j] different from the plateau value v.  The
original scans with a while loop; here the scanned indices are materialized as
the range [i, iMax) and the initial run of v-valued entries is measured. -/
def plateauEnd (x : List α) (v : α) (iMax i : ℕ) : ℕ :=
  i + ((List.range' i (iMax - i)).takeWhile (fun j => decide (x.getD j 0 = v))).length

/-- Main scan of scipy.signal._local_maxima_1d: for i running over interior
indices, a strictly rising edge followed by a plateau and a strictly falling
edge emits the plateau midpoint as a local maximum, and scanning resumes after
the plateau. -/
def localMaxFrom (x : List α) (iMax : ℕ) (i : ℕ) : List ℕ :=
  if _h : i < iMax then
    if x.getD (i - 1) 0 < x.getD i 0 then
      let ia := plateauEnd x (x.getD i 0) iMax (i + 1)
      if x.getD ia 0 < x.getD i 0 then
        (i + (ia - 1)) / 2 :: localMaxFrom x iMax (ia + 1)
      else localMaxFrom x iMax (i + 1)
    else localMaxFrom x iMax (i + 1)
  else []
termination_by iMax - i
decreasing_by
  · simp only [plateauEnd]; omega
  · omega
  · omega

/-- Local maxima of a 1-D signal, scipy.signal._local_maxima_1d: interior
indices only, scanning from 1 to length - 1. -/
def localMaxima (x : List α) : List ℕ := localMaxFrom x (x.length - 1) 1

/-- Height filter of scipy.signal.find_peaks: keep the peaks whose signal
value is at least the required height. -/
def heightFiltered (x : List α) (h : α) (peaks : List ℕ) : List ℕ :=
  peaks.filter (fun p => decide (h ≤ x.getD p 0))

/-- Iterated removal step of scipy.signal._select_by_peak_distance: peaks are
visited in priority order; a visited peak that is still surviving removes
every other peak closer than d samples.  The original scans left and right
from the visited peak and stops at the first peak at distance at least d;
since the peak list is ascending that removes exactly the peaks closer than d,
which is what the filter below does. -/
def pruneAux (d : ℕ) : List ℕ → List ℕ → List ℕ
  | [], surv => surv
  | j :: rest, surv =>
    if j ∈ surv then
      pruneAux d rest (surv.filter (fun k => k == j || decide (d ≤ Nat.dist k j)))
    else pruneAux d rest surv

/-- scipy.signal._select_by_peak_distance: process peaks from the highest
signal value down, each surviving peak removing its too-close neighbours, and
return the surviving peaks in their original ascending order. -/
def selectByDistance (x : List α) (d : ℕ) (peaks : List ℕ) : List ℕ :=
  let prio := List.insertionSort (byHeightDesc x) peaks
  let surv := pruneAux d prio peaks
  peaks.filter (fun p => decide (p ∈ surv))

/-- scipy.signal.find_peaks(x, height, distance): local maxima, then the
height filter, then the distance selection, as called at
detect_fingers_peaks.py line 65. -/
def findPeaksFull (x : List α) (h : α) (d : ℕ) : List ℕ :=
  selectByDistance x d (heightFiltered x h (localMaxima x))

/-- Selector of detect_fingers_peaks.py lines 77-83: when more than 5
candidates survive, sort them by distance from the palm center in descending
order (Python's stable sort with reverse=True) and keep the first 5; then sort
the final set ascending by x coordinate (stable sort on the first component). -/
def selectFinal (dKey : Point → α) (fingers : List Point) : List Point :=
  List.insertionSort byXAsc
    (if 5 < fingers.length
      then (List.insertionSort (byDistDesc dKey) fingers).take 5 else fingers)

/-- Candidate fingertips of detect_fingers_peaks.py lines 67-74: the contour
points at the accepted peak indices of the smoothed radial-distance signal,
kept only when their y coordinate is strictly above the horizontal line
palm_center.y + palm_radius.  The height threshold is palm_radius * 1.4 and
the minimal peak separation is ceil(len(points) / 20) samples (scipy rounds
the requested distance up).  dKey is the distance-to-palm-center key
np.linalg.norm(p - center). -/
def yFilteredFingers (c : Point) (palmR : α) (dKey : Point → α) (pts : List Point) :
    List Point :=
  (findPeaksFull (smooth (pts.map dKey)) (palmR * (7 / 5)) ((pts.length + 19) / 20)).filterMap
    (fun i => (pts[i]?).bind
      (fun p => if (p.2 : α) < (c.2 : α) + palmR then some p else none))

/-- Tail of detect_fingers_peaks.py (lines 50-83) after palm localization:
radial signal smoothing, peak detection, the vertical-position filter, the
over-detection cap keeping the 5 candidates farthest from the palm center
(stable descending sort by distance, first 5), and the final stable ascending
sort by x coordinate. -/
def detect_fingers_peaks_core (c : Point) (palmR : α) (dKey : Point → α)
    (pts : List Point) : List Point :=
  selectFinal dKey (yFilteredFingers c palmR dKey pts)

/-- Fingertip candidate record built at detect_fingers_polar.py lines 56-60:
the hull point, its angle around the palm center and its distance from it. -/
structure Candidate (α : Type) where
  pt : Point
  angle : α
  dist : α
deriving DecidableEq

/-- Ascending comparison of candidates by angle, the sort key of
detect_fingers_polar.py line 63. -/
def byAngleAsc : Candidate α → Candidate α → Prop := fun a b => a.angle ≤ b.angle

instance : DecidableRel (byAngleAsc (α := α)) :=
  fun a b => inferInstanceAs (Decidable (a.angle ≤ b.angle))

instance : IsTotal (Candidate α) byAngleAsc := ⟨fun a b => le_total a.angle b.angle⟩

instance : IsTrans (Candidate α) byAngleAsc := ⟨fun _ _ _ h1 h2 => le_trans h1 h2⟩

/-- Wrap of an angle difference, detect_fingers_polar.py lines 73-76: add
2*pi when the difference is below -pi, subtract 2*pi when it is above pi, then
take the absolute value.  piVal stands for math.pi. -/
def wrapGap (piVal x : α) : α :=
  let d1 := if x < -piVal then x + 2 * piVal else x
  let d2 := if piVal < d1 then d1 - 2 * piVal else d1
  |d2|

/-- Merge test of detect_fingers_polar.py line 78: consecutive angle-sorted
candidates closer than the 0.3 radian threshold join the same cluster. -/
def gapSmall (piVal : α) (a b : Candidate α) : Prop :=
  wrapGap piVal (b.angle - a.angle) < 3 / 10

instance (piVal : α) (a b : Candidate α) : Decidable (gapSmall piVal a b) := by
  unfold gapSmall; infer_instance

/-- Cluster walk of detect_fingers_polar.py lines 69-85: prev is the
previously visited candidate, acc the current cluster in reverse order.  A
small gap extends the current cluster, a large gap flushes it; the walk always
flushes the last cluster (the source's final `if current_cluster` append,
whose condition is always true since clusters are never empty). -/
def clustersFrom (piVal : α) (prev : Candidate α) (acc : List (Candidate α)) :
    List (Candidate α) → List (List (Candidate α))
  | [] => [acc.reverse]
  | c :: rest =>
    if gapSmall piVal prev c then clustersFrom piVal c (c :: acc) rest
    else acc.reverse :: clustersFrom piVal c [c] rest

/-- Left-to-right maximum accumulation of Python's max(cluster, key=dist):
a later candidate replaces the current best only when strictly farther. -/
def maxFromBy (best : Candidate α) : List (Candidate α) → Candidate α
  | [] => best
  | c :: rest => maxFromBy (if best.dist < c.dist then c else best) rest

/-- Python max(cluster, key=lambda x: x['dist']) on a possibly empty cluster:
none on the empty list (never reached: clusters are nonempty), otherwise the
first candidate of maximal distance. -/
def maxByDist : List (Candidate α) → Option (Candidate α)
  | [] => none
  | c :: rest => some (maxFromBy c rest)

/-- Clusters produced by the walk of detect_fingers_polar.py lines 66-85 on a
candidate list: no cluster when no candidate survived, else the walk starting
with the first candidate alone in the current cluster. -/
def clustersOf (piVal : α) : List (Candidate α) → List (List (Candidate α))
  | [] => []
  | c :: rest => clustersFrom piVal c [c] rest

/-- Clustering plus per-cluster selection, detect_fingers_polar.py lines
66-88: the farthest member of each cluster of the angle-sorted candidate
walk. -/
def mergedOf (piVal : α) (cands : List (Candidate α)) : List (Candidate α) :=
  (clustersOf piVal cands).filterMap maxByDist

/-- Candidate construction and filtering of detect_fingers_polar.py lines
48-60: keep the hull points farther than palm_radius * 1.5 from the palm
center whose y coordinate is strictly above palm_center.y + palm_radius * 0.5,
and record their angle and distance. -/
def polarCandidates (c : Point) (palmR : α) (angleOf dKey : Point → α)
    (hull : List Point) : List (Candidate α) :=
  hull.filterMap (fun pt =>
    if palmR * (3 / 2) < dKey pt then
      if (pt.2 : α) < (c.2 : α) + palmR * (1 / 2) then
        some ⟨pt, angleOf pt, dKey pt⟩
      else none
    else none)

/-- Candidate pipeline of detect_fingers_polar.py lines 48-88: filter the
hull points, sort the surviving candidates by angle, cluster them by angular
gap and return the farthest point of each cluster, in cluster (angle) order. -/
def detect_fingers_polar_core (piVal : α) (c : Point) (palmR : α)
    (angleOf dKey : Point → α) (hull : List Point) : List Point :=
  (mergedOf piVal
    (List.insertionSort byAngleAsc (polarCandidates c palmR angleOf dKey hull))).map
    (fun cand => cand.pt)

end Detect

/-- Euclidean distance between two pixel points, np.linalg.norm(p - q). -/
noncomputable def ptDist (p q : Point) : ℝ :=
  Real.sqrt (((p.1 - q.1 : ℤ) : ℝ) ^ 2 + ((p.2 - q.2 : ℤ) : ℝ) ^ 2)

/-- Planar point as a complex number, used to transport metric facts. -/
noncomputable def toC (p : Point) : ℂ := ⟨(p.1 : ℝ), (p.2 : ℝ)⟩

/-- math.atan2(y, x): the principal argument, in (-pi, pi], of the complex
number x + y*i. -/
noncomputable def atan2 (y x : ℝ) : ℝ := Complex.arg ⟨x, y⟩

/-- detect_fingers_polar.py with the real-valued geometry the script computes:
angles via math.atan2 around the palm center, distances via np.linalg.norm,
and math.pi in the angle wrap. -/
noncomputable def detect_fingers_polar (c : Point) (palmR : ℝ) (hull : List Point) :
    List Point :=
  Detect.detect_fingers_polar_core Real.pi c palmR
    (fun p => atan2 ((p.2 - c.2 : ℤ) : ℝ) ((p.1 - c.1 : ℤ) : ℝ))
    (fun p => ptDist p c) hull

/-- detect_fingers_peaks.py with the real-valued geometry the script computes:
the radial signal and the over-detection sort key are the Euclidean distance
to the palm center. -/
noncomputable def detect_fingers_peaks (c : Point) (palmR : ℝ) (pts : List Point) :
    List Point :=
  Detect.detect_fingers_peaks_core c palmR (fun p => ptDist p c) pts

namespace Defects

/-- One row of the cv2.convexityDefects output, detect_fingers_v1.py line 62:
contour indices of the defect's start point, end point and deepest point, and
the fixed-point depth d (true distance times 256, a nonnegative integer). -/
structure Defect where
  s : ℕ
  e : ℕ
  f : ℕ
  d : ℕ
deriving DecidableEq

/-- Side a of the defect triangle, detect_fingers_v1.py line 69: the distance
between the defect's end and start points. -/
noncomputable def aLen (cnt : List Point) (dft : Defect) : ℝ :=
  ptDist (cnt.getD dft.e (0, 0)) (cnt.getD dft.s (0, 0))

/-- Side b of the defect triangle, line 70: the distance between the deepest
point and the start point. -/
noncomputable def bLen (cnt : List Point) (dft : Defect) : ℝ :=
  ptDist (cnt.getD dft.f (0, 0)) (cnt.getD dft.s (0, 0))

/-- Side c of the defect triangle, line 71: the distance between the end
point and the deepest point. -/
noncomputable def cLen (cnt : List Point) (dft : Defect) : ℝ :=
  ptDist (cnt.getD dft.e (0, 0)) (cnt.getD dft.f (0, 0))

/-- Law-of-cosines ratio of detect_fingers_v1.py line 74:
(b^2 + c^2 - a^2) / (2*b*c). -/
noncomputable def cosVal (cnt : List Point) (dft : Defect) : ℝ :=
  (bLen cnt dft ^ 2 + cLen cnt dft ^ 2 - aLen cnt dft ^ 2) /
    (2 * bLen cnt dft * cLen cnt dft)

/-- Included angle at the deepest point in degrees, line 74: the arccos of the
law-of-cosines ratio scaled by the source's radian-to-degree constant. -/
noncomputable def angleDeg (cnt : List Point) (dft : Defect) : ℝ :=
  Real.arccos (cosVal cnt dft) * 57.2957795

/-- Finger-valley test of detect_fingers_v1.py line 79: included angle at most
90 degrees and fixed-point depth above 3000. -/
def isValley (cnt : List Point) (dft : Defect) : Prop :=
  angleDeg cnt dft ≤ 90 ∧ 3000 < dft.d

open Classical in
/-- Valley-counting loop of detect_fingers_v1.py lines 65-81: defect_count
starts at 0 and each qualifying defect increments it. -/
noncomputable def defectCount (cnt : List Point) (ds : List Defect) : ℕ :=
  ds.foldl (fun acc dft => if isValley cnt dft then acc + 1 else acc) 0

open Classical in
/-- Declarative counterpart of the counting loop: the sublist of defects that
qualify as finger valleys. -/
noncomputable def valleys (cnt : List Point) (ds : List Defect) : List Defect :=
  ds.filter (fun dft => decide (isValley cnt dft))

/-- Final count of detect_fingers_v1.py lines 64-86: cv2.convexityDefects may
return None (a convex contour), in which case the loop is skipped entirely and
defect_count stays 0; the estimate is always defect_count + 1. -/
noncomputable def estimatedFingers (cnt : List Point) (od : Option (List Defect)) : ℕ :=
  (match od with
   | none => 0
   | some ds => defectCount cnt ds) + 1

end Defects

/-! ## Theorems -/

namespace Silhouette

theorem getPix_eq_zero_of_fgCount_zero {m : Mask} (h : fgCount m = 0) (i j : ℕ) :
    getPix m i j = 0 := by
  unfold getPix
  by_cases hi : i < m.length
  · have hrow : (m.getD i []).countP (fun v => v != 0) = 0 := by
      have hmem : (m.getD i []).countP (fun v => v != 0) ∈
          m.map (fun row => row.countP (fun v => v != 0)) := by
        rw [List.getD_eq_getElem m [] hi]
        exact List.mem_map_of_mem _ (List.getElem_mem hi)
      exact (List.sum_eq_zero_iff.mp h) _ hmem
    by_cases hj : j < (m.getD i []).length
    · have : ¬ ((m.getD i []).getD j 0 != 0) = true := by
        rw [List.getD_eq_getElem _ 0 hj]
        exact List.countP_eq_zero.mp hrow _ (List.getElem_mem hj)
      simpa using this
    · exact List.getD_eq_default _ _ (by omega)
  · have hrow : m.getD i [] = [] := List.getD_eq_default _ _ (by omega)
    rw [hrow]
    simp

theorem boundaryPixels_eq_nil_of_fgCount_zero {m : Mask} (h : fgCount m = 0) :
    boundaryPixels m = [] := by
  unfold boundaryPixels
  rw [List.flatMap_eq_nil_iff]
  intro i _
  have : ((List.range (m.getD i []).length).filter
      (fun j => decide (isBoundaryPix m i j))) = [] := by
    rw [List.filter_eq_nil_iff]
    intro j _
    simp only [decide_eq_true_eq]
    intro hb
    exact hb.1 (getPix_eq_zero_of_fgCount_zero h i j)
  rw [this]
  rfl

/-- Model-adequacy lemma for a single row: a row containing a nonzero value has
a leftmost nonzero entry, whose left neighbor is zero or off the image. -/
theorem row_has_left_boundary :
    ∀ r : List ℕ, (∃ v ∈ r, v ≠ 0) →
      ∃ j, j < r.length ∧ r.getD j 0 ≠ 0 ∧ (j = 0 ∨ r.getD (j - 1) 0 = 0) := by
  intro r
  induction r with
  | nil => rintro ⟨v, hv, -⟩; exact absurd hv (List.not_mem_nil v)
  | cons a r ih =>
    rintro ⟨v, hv, hvne⟩
    by_cases ha : a = 0
    · rcases List.mem_cons.mp hv with rfl | hv'
      · exact absurd ha hvne
      · obtain ⟨j, hj, hne, hleft⟩ := ih ⟨v, hv', hvne⟩
        refine ⟨j + 1, by simpa using Nat.succ_lt_succ hj, by simpa using hne, Or.inr ?_⟩
        cases j with
        | zero => simpa using ha
        | succ j' =>
          have h0 : r.getD j' 0 = 0 := by
            rcases hleft with h0 | h0
            · exact absurd h0 (Nat.succ_ne_zero j')
            · simpa using h0
          simpa using h0
    · exact ⟨0, by simp, by simpa using ha, Or.inl rfl⟩

/-- Model-adequacy lemma: a mask with at least one foreground pixel has at
least one boundary pixel, so the findContours model returns a contour. -/
theorem boundaryPixels_ne_nil_of_fg {m : Mask} (h : fgCount m ≠ 0) :
    boundaryPixels m ≠ [] := by
  have hex : ∃ i, i < m.length ∧ ∃ v ∈ m.getD i [], v ≠ 0 := by
    by_contra hno
    push_neg at hno
    apply h
    unfold fgCount
    rw [List.sum_eq_zero_iff]
    intro x hx
    obtain ⟨row, hrow, rfl⟩ := List.mem_map.mp hx
    obtain ⟨i, hi, rfl⟩ := List.mem_iff_getElem.mp hrow
    rw [List.countP_eq_zero]
    intro v hv
    have := hno i hi v (by rwa [List.getD_eq_getElem m [] hi])
    simpa using this
  obtain ⟨i, hi, hrow⟩ := hex
  obtain ⟨j, hj, hne, hleft⟩ := row_has_left_boundary _ hrow
  apply List.ne_nil_of_mem (a := (i, j))
  unfold boundaryPixels
  rw [List.mem_flatMap]
  refine ⟨i, List.mem_range.mpr hi, ?_⟩
  apply List.mem_map.mpr
  refine ⟨j, List.mem_filter.mpr ⟨List.mem_range.mpr hj, ?_⟩, rfl⟩
  simp only [decide_eq_true_eq]
  constructor
  · exact hne
  · rcases hleft with rfl | h0
    · exact Or.inr (Or.inl rfl)
    · exact Or.inr (Or.inr (Or.inr (Or.inl h0)))

/-- C3, counterexample: on the thresholded mask [[255, 0], [0, 255]] the
source inverts (its two tested corners, top-left and bottom-right, are
foreground), yet the four-corner condition claimed by the spec is false (the
top-right and bottom-left corners are background), so inversion does not
happen if and only if all four corners are foreground. -/
theorem C3_counterexample :
    polarityFix [[255, 0], [0, 255]] = maskNot [[255, 0], [0, 255]] ∧
      polarityFix [[255, 0], [0, 255]] ≠ [[255, 0], [0, 255]] ∧
      ¬ allFourCornersFg [[255, 0], [0, 255]] := by decide

/-- C3 (amended): after Otsu thresholding the mask is inverted if and only if
the top-left and the bottom-right corners are both classified foreground; the
spec's all-four-corners condition remains sufficient for inversion but is not
necessary. -/
theorem C3_invert_iff_two_corners (m : Mask) :
    (twoCornerCond m → polarityFix m = maskNot m) ∧
      (¬ twoCornerCond m → polarityFix m = m) ∧
      (allFourCornersFg m → polarityFix m = maskNot m) := by
  refine ⟨fun h => ?_, fun h => ?_, fun h => ?_⟩
  · simp [polarityFix, h]
  · simp [polarityFix, h]
  · have h2 : twoCornerCond m := ⟨h.1, h.2.2.2⟩
    simp [polarityFix, h2]

/-- Witness for C3_invert_iff_two_corners at the concrete mask [[255]]. -/
theorem C3_invert_iff_two_corners_witness :
    twoCornerCond [[255]] ∧ polarityFix [[255]] = maskNot [[255]] :=
  ⟨by decide, (C3_invert_iff_two_corners [[255]]).1 (by decide)⟩

/-- C4: a binarized and opened mask with zero foreground pixels makes the
pipeline fail (the findContours model returns no contour, detect_fingers_peaks.py
lines 37-41 then terminate the run with the failure the spec names
EmptyMaskError), and this failure is distinct from every successful
FingertipSet result, in particular from the valid zero-count one. -/
theorem C4_empty_mask_fails (m : Mask) (k : List (ℕ × ℕ) → FingertipSet)
    (h : fgCount m = 0) :
    runFromMask m k = .error .emptyMask ∧
      ∀ fs : FingertipSet, runFromMask m k ≠ .ok fs := by
  have hb : boundaryPixels m = [] := boundaryPixels_eq_nil_of_fgCount_zero h
  constructor
  · unfold runFromMask
    rw [hb]
  · intro fs
    unfold runFromMask
    rw [hb]
    simp

/-- Witness for C4_empty_mask_fails at a concrete all-background 2x2 mask. -/
theorem C4_empty_mask_fails_witness :
    fgCount [[0, 0], [0, 0]] = 0 ∧
      runFromMask [[0, 0], [0, 0]] (fun _ => ⟨[], 0⟩) = .error .emptyMask :=
  ⟨by decide, (C4_empty_mask_fails [[0, 0], [0, 0]] (fun _ => ⟨[], 0⟩) (by decide)).1⟩

end Silhouette

namespace Detect

variable {α : Type} [LinearOrderedField α]

theorem clustersFrom_flatten (piVal : α) :
    ∀ (rest : List (Candidate α)) (prev : Candidate α) (acc : List (Candidate α)),
      (clustersFrom piVal prev acc rest).flatten = acc.reverse ++ rest := by
  intro rest
  induction rest with
  | nil => intro prev acc; simp [clustersFrom]
  | cons c rest ih =>
    intro prev acc
    simp only [clustersFrom]
    by_cases hg : gapSmall piVal prev c
    · rw [if_pos hg, ih]
      simp
    · rw [if_neg hg, List.flatten_cons, ih]
      simp

theorem clustersFrom_shape (piVal : α) :
    ∀ (rest : List (Candidate α)) (prev : Candidate α) (acc : List (Candidate α)),
      ∃ t tail, clustersFrom piVal prev acc rest = (acc.reverse ++ t) :: tail := by
  intro rest
  induction rest with
  | nil => intro prev acc; exact ⟨[], [], by simp [clustersFrom]⟩
  | cons c rest ih =>
    intro prev acc
    simp only [clustersFrom]
    by_cases hg : gapSmall piVal prev c
    · rw [if_pos hg]
      obtain ⟨t, tail, ht⟩ := ih c (c :: acc)
      exact ⟨c :: t, tail, by simpa using ht⟩
    · rw [if_neg hg]
      exact ⟨[], clustersFrom piVal c [c] rest, by simp⟩

theorem clustersFrom_ne_nil (piVal : α) :
    ∀ (rest : List (Candidate α)) (prev : Candidate α) (acc : List (Candidate α)),
      acc ≠ [] → ∀ cl ∈ clustersFrom piVal prev acc rest, cl ≠ [] := by
  intro rest
  induction rest with
  | nil =>
    intro prev acc hacc cl hcl
    simp only [clustersFrom, List.mem_singleton] at hcl
    subst hcl
    simpa using hacc
  | cons c rest ih =>
    intro prev acc hacc cl hcl
    simp only [clustersFrom] at hcl
    by_cases hg : gapSmall piVal prev c
    · rw [if_pos hg] at hcl
      exact ih c (c :: acc) (List.cons_ne_nil c acc) cl hcl
    · rw [if_neg hg] at hcl
      rcases List.mem_cons.mp hcl with rfl | hcl'
      · simpa using hacc
      · exact ih c [c] (List.cons_ne_nil c []) cl hcl'

theorem clustersFrom_chain (piVal : α) :
    ∀ (rest : List (Candidate α)) (prev : Candidate α) (acc' : List (Candidate α)),
      List.Chain' (gapSmall piVal) (prev :: acc').reverse →
      ∀ cl ∈ clustersFrom piVal prev (prev :: acc') rest,
        List.Chain' (gapSmall piVal) cl := by
  intro rest
  induction rest with
  | nil =>
    intro prev acc' hch cl hcl
    simp only [clustersFrom, List.mem_singleton] at hcl
    subst hcl
    exact hch
  | cons c rest ih =>
    intro prev acc' hch cl hcl
    simp only [clustersFrom] at hcl
    by_cases hg : gapSmall piVal prev c
    · rw [if_pos hg] at hcl
      refine ih c (prev :: acc') ?_ cl hcl
      rw [List.reverse_cons]
      rw [List.chain'_append]
      refine ⟨hch, List.chain'_singleton c, ?_⟩
      intro x hx y hy
      rw [List.getLast?_reverse] at hx
      simp only [List.head?_cons, Option.mem_some_iff] at hx hy
      subst hx
      subst hy
      exact hg
    · rw [if_neg hg] at hcl
      rcases List.mem_cons.mp hcl with rfl | hcl'
      · exact hch
      · exact ih c [] (List.chain'_singleton c) cl hcl'

theorem clustersFrom_boundary (piVal : α) :
    ∀ (rest : List (Candidate α)) (prev : Candidate α) (acc' : List (Candidate α)),
      List.Chain'
        (fun cl1 cl2 => ∀ a ∈ cl1.getLast?, ∀ b ∈ cl2.head?, ¬ gapSmall piVal a b)
        (clustersFrom piVal prev (prev :: acc') rest) := by
  intro rest
  induction rest with
  | nil => intro prev acc'; simp only [clustersFrom]; exact List.chain'_singleton _
  | cons c rest ih =>
    intro prev acc'
    simp only [clustersFrom]
    by_cases hg : gapSmall piVal prev c
    · rw [if_pos hg]
      exact ih c (prev :: acc')
    · rw [if_neg hg]
      rw [List.chain'_cons']
      refine ⟨?_, ih c []⟩
      intro y hy
      obtain ⟨t, tail, ht⟩ := clustersFrom_shape piVal rest c [c]
      rw [ht] at hy
      simp only [List.head?_cons, Option.mem_some_iff] at hy
      subst hy
      intro a ha b hb
      rw [List.getLast?_reverse] at ha
      simp only [List.head?_cons, Option.mem_some_iff] at ha
      simp only [List.reverse_cons, List.reverse_nil, List.nil_append,
        List.singleton_append, List.head?_cons, Option.mem_some_iff] at hb
      subst ha
      subst hb
      exact hg

theorem maxFromBy_spec (l : List (Candidate α)) :
    ∀ best : Candidate α,
      (maxFromBy best l = best ∨ maxFromBy best l ∈ l) ∧
        best.dist ≤ (maxFromBy best l).dist ∧
        ∀ x ∈ l, x.dist ≤ (maxFromBy best l).dist := by
  induction l with
  | nil => intro best; simp [maxFromBy]
  | cons c rest ih =>
    intro best
    simp only [maxFromBy]
    by_cases h : best.dist < c.dist
    · rw [if_pos h]
      obtain ⟨hmem, hge, hall⟩ := ih c
      refine ⟨?_, le_trans (le_of_lt h) hge, ?_⟩
      · rcases hmem with h1 | h1
        · exact Or.inr (by rw [h1]; exact List.mem_cons_self c rest)
        · exact Or.inr (List.mem_cons_of_mem _ h1)
      · intro x hx
        rcases List.mem_cons.mp hx with rfl | hx'
        · exact hge
        · exact hall x hx'
    · rw [if_neg h]
      obtain ⟨hmem, hge, hall⟩ := ih best
      refine ⟨?_, hge, ?_⟩
      · rcases hmem with h1 | h1
        · exact Or.inl h1
        · exact Or.inr (List.mem_cons_of_mem _ h1)
      · intro x hx
        rcases List.mem_cons.mp hx with rfl | hx'
        · exact le_trans (not_lt.mp h) hge
        · exact hall x hx'

theorem maxByDist_spec (cl : List (Candidate α)) (hne : cl ≠ []) :
    ∃ b, maxByDist cl = some b ∧ b ∈ cl ∧ ∀ x ∈ cl, x.dist ≤ b.dist := by
  match cl, hne with
  | c :: rest, _ =>
    simp only [maxByDist]
    obtain ⟨hmem, hge, hall⟩ := maxFromBy_spec rest c
    refine ⟨maxFromBy c rest, rfl, ?_, ?_⟩
    · rcases hmem with h1 | h1
      · rw [h1]; exact List.mem_cons_self c rest
      · exact List.mem_cons_of_mem _ h1
    · intro x hx
      rcases List.mem_cons.mp hx with rfl | hx'
      · exact hge
      · exact hall x hx'

theorem filterMap_maxByDist_length (cls : List (List (Candidate α)))
    (h : ∀ cl ∈ cls, cl ≠ []) :
    (cls.filterMap maxByDist).length = cls.length := by
  induction cls with
  | nil => rfl
  | cons cl cls ih =>
    obtain ⟨b, hb, -, -⟩ := maxByDist_spec cl (h cl (List.mem_cons_self _ _))
    rw [List.filterMap_cons, hb]
    simp only [List.length_cons]
    rw [ih (fun cl' hcl' => h cl' (List.mem_cons_of_mem _ hcl'))]

theorem clustersOf_flatten (piVal : α) (cands : List (Candidate α)) :
    (clustersOf piVal cands).flatten = cands := by
  cases cands with
  | nil => rfl
  | cons c0 rest => simpa using clustersFrom_flatten piVal rest c0 [c0]

theorem clustersOf_ne_nil (piVal : α) (cands : List (Candidate α)) :
    ∀ cl ∈ clustersOf piVal cands, cl ≠ [] := by
  cases cands with
  | nil => intro cl hcl; exact absurd hcl (List.not_mem_nil cl)
  | cons c0 rest => exact clustersFrom_ne_nil piVal rest c0 [c0] (List.cons_ne_nil c0 [])

/-- C2 (amended): in the hull angular clustering, the wrapped angular gap is
evaluated only between consecutive elements of the linearly angle-sorted
candidate list.  The produced clusters partition that sorted list into its
maximal consecutive runs with wrapped gap below 0.3: clusters are nonempty
consecutive segments whose internal consecutive gaps are all below the
threshold, the gap between the last element of a cluster and the first element
of the next is at least the threshold, and each cluster yields exactly one
merged candidate.  A group straddling the +-pi seam is therefore merged only
when its two sides are adjacent in the linear sorted order; with another
surviving candidate between them in that order it is split (see the
counterexample). -/
theorem C2_clusters_are_consecutive_runs (piVal : α) (c : Point) (palmR : α)
    (angleOf dKey : Point → α) (hull : List Point) :
    (clustersOf piVal
        (List.insertionSort byAngleAsc (polarCandidates c palmR angleOf dKey hull))).flatten =
      List.insertionSort byAngleAsc (polarCandidates c palmR angleOf dKey hull) ∧
    (∀ cl ∈ clustersOf piVal
        (List.insertionSort byAngleAsc (polarCandidates c palmR angleOf dKey hull)),
      cl ≠ [] ∧ List.Chain' (gapSmall piVal) cl) ∧
    List.Chain'
      (fun cl1 cl2 => ∀ a ∈ cl1.getLast?, ∀ b ∈ cl2.head?, ¬ gapSmall piVal a b)
      (clustersOf piVal
        (List.insertionSort byAngleAsc (polarCandidates c palmR angleOf dKey hull))) ∧
    (mergedOf piVal
        (List.insertionSort byAngleAsc (polarCandidates c palmR angleOf dKey hull))).length =
      (clustersOf piVal
        (List.insertionSort byAngleAsc (polarCandidates c palmR angleOf dKey hull))).length := by
  refine ⟨clustersOf_flatten piVal _, ?_, ?_, ?_⟩
  · intro cl hcl
    refine ⟨clustersOf_ne_nil piVal _ cl hcl, ?_⟩
    cases hs : List.insertionSort byAngleAsc (polarCandidates c palmR angleOf dKey hull) with
    | nil => rw [hs] at hcl; exact absurd hcl (List.not_mem_nil cl)
    | cons c0 rest =>
      rw [hs] at hcl
      exact clustersFrom_chain piVal rest c0 [] (by simp) cl hcl
  · cases hs : List.insertionSort byAngleAsc (polarCandidates c palmR angleOf dKey hull) with
    | nil => simp [clustersOf]
    | cons c0 rest => exact clustersFrom_boundary piVal rest c0 []
  · exact filterMap_maxByDist_length _ (clustersOf_ne_nil piVal _)

/-- C10: whenever at least one hull vertex survives the distance and vertical
filters, the polar pipeline returns at least one fingertip (the final cluster
is always flushed), every merged candidate is the farthest-from-center member
of its cluster, and every returned point is the point of one of the filtered
candidates. -/
theorem C10_final_flush_and_farthest (piVal : α) (c : Point) (palmR : α)
    (angleOf dKey : Point → α) (hull : List Point)
    (hne : polarCandidates c palmR angleOf dKey hull ≠ []) :
    detect_fingers_polar_core piVal c palmR angleOf dKey hull ≠ [] ∧
      (∀ f ∈ mergedOf piVal
          (List.insertionSort byAngleAsc (polarCandidates c palmR angleOf dKey hull)),
        f ∈ polarCandidates c palmR angleOf dKey hull ∧
          ∃ cl ∈ clustersOf piVal
              (List.insertionSort byAngleAsc (polarCandidates c palmR angleOf dKey hull)),
            maxByDist cl = some f ∧ f ∈ cl ∧ ∀ x ∈ cl, x.dist ≤ f.dist) ∧
      ∀ p ∈ detect_fingers_polar_core piVal c palmR angleOf dKey hull,
        ∃ f ∈ polarCandidates c palmR angleOf dKey hull, f.pt = p := by
  have hperm := List.perm_insertionSort byAngleAsc (polarCandidates c palmR angleOf dKey hull)
  have hmem_f : ∀ f ∈ mergedOf piVal
      (List.insertionSort byAngleAsc (polarCandidates c palmR angleOf dKey hull)),
      f ∈ polarCandidates c palmR angleOf dKey hull ∧
        ∃ cl ∈ clustersOf piVal
            (List.insertionSort byAngleAsc (polarCandidates c palmR angleOf dKey hull)),
          maxByDist cl = some f ∧ f ∈ cl ∧ ∀ x ∈ cl, x.dist ≤ f.dist := by
    intro f hf
    unfold mergedOf at hf
    obtain ⟨cl, hcl, hsome⟩ := List.mem_filterMap.mp hf
    obtain ⟨b, hb, hbmem, hball⟩ :=
      maxByDist_spec cl (clustersOf_ne_nil piVal _ cl hcl)
    have hfb : f = b := by rw [hb] at hsome; exact (Option.some_inj.mp hsome).symm
    subst hfb
    refine ⟨?_, cl, hcl, hb, hbmem, hball⟩
    have hflat : f ∈ (clustersOf piVal
        (List.insertionSort byAngleAsc (polarCandidates c palmR angleOf dKey hull))).flatten :=
      List.mem_flatten.mpr ⟨cl, hcl, hbmem⟩
    rw [clustersOf_flatten] at hflat
    exact hperm.mem_iff.mp hflat
  refine ⟨?_, hmem_f, ?_⟩
  · cases hs : List.insertionSort byAngleAsc (polarCandidates c palmR angleOf dKey hull) with
    | nil =>
      exact absurd (hperm.symm.length_eq.trans (by rw [hs]; rfl))
        (fun hlen => hne (List.length_eq_zero.mp hlen))
    | cons c0 rest =>
      unfold detect_fingers_polar_core mergedOf
      rw [hs]
      obtain ⟨t, tail, ht⟩ := clustersFrom_shape piVal rest c0 [c0]
      show ((clustersOf piVal (c0 :: rest)).filterMap maxByDist).map (fun cand => cand.pt) ≠ []
      simp only [clustersOf]
      rw [ht]
      simp only [List.reverse_cons, List.reverse_nil, List.nil_append,
        List.singleton_append]
      rw [List.filterMap_cons]
      obtain ⟨b, hb, -, -⟩ := maxByDist_spec (c0 :: t) (List.cons_ne_nil c0 t)
      rw [hb]
      simp
  · intro p hp
    unfold detect_fingers_polar_core at hp
    obtain ⟨f, hf, hfp⟩ := List.mem_map.mp hp
    exact ⟨f, (hmem_f f hf).1, hfp⟩

/-- Witness for C10_final_flush_and_farthest on a one-point hull over the
rationals. -/
theorem C10_final_flush_and_farthest_witness :
    polarCandidates ((0 : ℤ), (0 : ℤ)) (1 : ℚ) (fun _ => 0) (fun p => (p.1 : ℚ))
        [((10 : ℤ), (0 : ℤ))] ≠ [] ∧
      detect_fingers_polar_core 3 ((0 : ℤ), (0 : ℤ)) (1 : ℚ) (fun _ => 0)
        (fun p => (p.1 : ℚ)) [((10 : ℤ), (0 : ℤ))] ≠ [] :=
  ⟨by norm_num [polarCandidates, List.filterMap_cons],
    (C10_final_flush_and_farthest 3 ((0 : ℤ), (0 : ℤ)) (1 : ℚ) (fun _ => 0)
      (fun p => (p.1 : ℚ)) [((10 : ℤ), (0 : ℤ))]
      (by norm_num [polarCandidates, List.filterMap_cons])).1⟩

end Detect

namespace Detect

variable {α : Type} [LinearOrderedField α]

/-- C1 (amended): the RadialPeakStrategy pipeline caps its final set at 5
points: the pipeline tail equals its selector applied to the y-filtered
candidates, the selector never returns more than 5 points and always sorts
ascending by x, and whenever more than 5 candidates survive it keeps a list
permuting the first 5 of the stable descending distance sort, each kept
candidate being at least as far from the palm center as every dropped one.
The HullAngularClusterStrategy script has no such selector (see the
counterexample). -/
theorem C1_peaks_cap_and_sort (c : Point) (palmR : α) (dKey : Point → α)
    (pts : List Point) (fingers : List Point) :
    detect_fingers_peaks_core c palmR dKey pts
        = selectFinal dKey (yFilteredFingers c palmR dKey pts) ∧
      (selectFinal dKey fingers).length ≤ 5 ∧
      List.Sorted byXAsc (selectFinal dKey fingers) ∧
      (5 < fingers.length →
        (selectFinal dKey fingers).Perm
            ((List.insertionSort (byDistDesc dKey) fingers).take 5) ∧
        ∀ p ∈ (List.insertionSort (byDistDesc dKey) fingers).take 5,
          ∀ q ∈ (List.insertionSort (byDistDesc dKey) fingers).drop 5,
            dKey q ≤ dKey p) := by
  refine ⟨rfl, ?_, ?_, fun h5 => ⟨?_, ?_⟩⟩
  · unfold selectFinal
    rw [List.length_insertionSort]
    by_cases h : 5 < fingers.length
    · rw [if_pos h, List.length_take, List.length_insertionSort]
      exact min_le_left _ _
    · rw [if_neg h]
      omega
  · exact List.sorted_insertionSort byXAsc _
  · unfold selectFinal
    rw [if_pos h5]
    exact List.perm_insertionSort byXAsc _
  · have hsorted : List.Sorted (byDistDesc dKey)
        (List.insertionSort (byDistDesc dKey) fingers) :=
      List.sorted_insertionSort (byDistDesc dKey) fingers
    rw [← List.take_append_drop 5 (List.insertionSort (byDistDesc dKey) fingers)]
      at hsorted
    exact (List.pairwise_append.mp hsorted).2.2

/-- Witness for C1_peaks_cap_and_sort with six explicit over-detected
candidates. -/
theorem C1_peaks_cap_and_sort_witness :
    5 < ([((1 : ℤ), (0 : ℤ)), ((2 : ℤ), (0 : ℤ)), ((3 : ℤ), (0 : ℤ)),
          ((4 : ℤ), (0 : ℤ)), ((5 : ℤ), (0 : ℤ)), ((6 : ℤ), (0 : ℤ))] : List Point).length ∧
      ((selectFinal (fun p => (p.1 : ℚ))
          [((1 : ℤ), (0 : ℤ)), ((2 : ℤ), (0 : ℤ)), ((3 : ℤ), (0 : ℤ)),
            ((4 : ℤ), (0 : ℤ)), ((5 : ℤ), (0 : ℤ)), ((6 : ℤ), (0 : ℤ))]).Perm
          ((List.insertionSort (byDistDesc (fun p => (p.1 : ℚ)))
            [((1 : ℤ), (0 : ℤ)), ((2 : ℤ), (0 : ℤ)), ((3 : ℤ), (0 : ℤ)),
              ((4 : ℤ), (0 : ℤ)), ((5 : ℤ), (0 : ℤ)), ((6 : ℤ), (0 : ℤ))]).take 5) ∧
        ∀ p ∈ (List.insertionSort (byDistDesc (fun p => (p.1 : ℚ)))
            [((1 : ℤ), (0 : ℤ)), ((2 : ℤ), (0 : ℤ)), ((3 : ℤ), (0 : ℤ)),
              ((4 : ℤ), (0 : ℤ)), ((5 : ℤ), (0 : ℤ)), ((6 : ℤ), (0 : ℤ))]).take 5,
          ∀ q ∈ (List.insertionSort (byDistDesc (fun p => (p.1 : ℚ)))
            [((1 : ℤ), (0 : ℤ)), ((2 : ℤ), (0 : ℤ)), ((3 : ℤ), (0 : ℤ)),
              ((4 : ℤ), (0 : ℤ)), ((5 : ℤ), (0 : ℤ)), ((6 : ℤ), (0 : ℤ))]).drop 5,
            (q.1 : ℚ) ≤ (p.1 : ℚ)) :=
  ⟨by decide,
    (C1_peaks_cap_and_sort ((0 : ℤ), (0 : ℤ)) 0 (fun p => (p.1 : ℚ)) []
      [((1 : ℤ), (0 : ℤ)), ((2 : ℤ), (0 : ℤ)), ((3 : ℤ), (0 : ℤ)),
        ((4 : ℤ), (0 : ℤ)), ((5 : ℤ), (0 : ℤ)), ((6 : ℤ), (0 : ℤ))]).2.2.2 (by decide)⟩

/-- Evaluation of the wrap when the difference is already in the principal
range: neither correction fires and the gap is the plain absolute value. -/
theorem wrapGap_eval_mid (piVal x : α) (h1 : -piVal ≤ x) (h2 : x ≤ piVal) :
    wrapGap piVal x = |x| := by
  simp only [wrapGap]
  rw [if_neg (not_lt.mpr h1), if_neg (not_lt.mpr h2)]

/-- Evaluation of the wrap when the difference exceeds pi: one downward
correction fires. -/
theorem wrapGap_eval_high (piVal x : α) (h1 : -piVal ≤ x) (h2 : piVal < x) :
    wrapGap piVal x = |x - 2 * piVal| := by
  simp only [wrapGap]
  rw [if_neg (not_lt.mpr h1), if_pos h2]

end Detect

theorem real_sqrt_of_sq (x y : ℝ) (hy : 0 ≤ y) (h : y ^ 2 = x) : Real.sqrt x = y := by
  rw [← h]
  exact Real.sqrt_sq hy

theorem arg_mk_pos_real (r : ℝ) (hr : 0 ≤ r) : Complex.arg ⟨r, 0⟩ = 0 := by
  have h : (⟨r, 0⟩ : ℂ) = (r : ℂ) := by
    apply Complex.ext <;> simp
  rw [h]
  exact Complex.arg_ofReal_of_nonneg hr

theorem arg_mk_neg_real (r : ℝ) (hr : r < 0) : Complex.arg ⟨r, 0⟩ = Real.pi := by
  have h : (⟨r, 0⟩ : ℂ) = (r : ℂ) := by
    apply Complex.ext <;> simp
  rw [h]
  exact Complex.arg_ofReal_of_neg hr

theorem arg_mk_neg_imag (r : ℝ) (hr : 0 < r) : Complex.arg ⟨0, -r⟩ = -(Real.pi / 2) := by
  have h : (⟨0, -r⟩ : ℂ) = (r : ℂ) * (-Complex.I) := by
    apply Complex.ext <;> simp
  rw [h, Complex.arg_real_mul _ hr, Complex.arg_neg_I]

theorem atan2_neg_imag_eval : atan2 (-10 : ℝ) 0 = -(Real.pi / 2) := by
  unfold atan2
  have h : (-10 : ℝ) = -(10 : ℝ) := by norm_num
  rw [h]
  exact arg_mk_neg_imag 10 (by norm_num)

theorem atan2_pos_real_eval : atan2 (0 : ℝ) 10 = 0 :=
  arg_mk_pos_real 10 (by norm_num)

theorem atan2_neg_real_eval : atan2 (0 : ℝ) (-10) = Real.pi :=
  arg_mk_neg_real (-10) (by norm_num)

theorem ptDist_down10 : ptDist ((0 : ℤ), (-10 : ℤ)) ((0 : ℤ), (0 : ℤ)) = 10 := by
  unfold ptDist
  norm_num
  exact real_sqrt_of_sq 100 10 (by norm_num) (by norm_num)

theorem ptDist_right10 : ptDist ((10 : ℤ), (0 : ℤ)) ((0 : ℤ), (0 : ℤ)) = 10 := by
  unfold ptDist
  norm_num
  exact real_sqrt_of_sq 100 10 (by norm_num) (by norm_num)

theorem ptDist_left10 : ptDist ((-10 : ℤ), (0 : ℤ)) ((0 : ℤ), (0 : ℤ)) = 10 := by
  unfold ptDist
  norm_num
  exact real_sqrt_of_sq 100 10 (by norm_num) (by norm_num)

theorem polar_axis_candidates_eval :
    Detect.polarCandidates ((0 : ℤ), (0 : ℤ)) (2 : ℝ)
        (fun p => atan2 ((p.2 - (0 : ℤ) : ℤ) : ℝ) ((p.1 - (0 : ℤ) : ℤ) : ℝ))
        (fun p => ptDist p ((0 : ℤ), (0 : ℤ)))
        [((0 : ℤ), (-10 : ℤ)), ((10 : ℤ), (0 : ℤ)), ((-10 : ℤ), (0 : ℤ))] =
      [⟨((0 : ℤ), (-10 : ℤ)), -(Real.pi / 2), 10⟩,
        ⟨((10 : ℤ), (0 : ℤ)), 0, 10⟩,
        ⟨((-10 : ℤ), (0 : ℤ)), Real.pi, 10⟩] := by
  simp only [Detect.polarCandidates, List.filterMap_cons, List.filterMap_nil]
  norm_num [ptDist_down10, ptDist_right10, ptDist_left10,
    atan2_neg_imag_eval, atan2_pos_real_eval, atan2_neg_real_eval,
    show ptDist ((0 : ℤ), (-10 : ℤ)) 0 = 10 from ptDist_down10,
    show ptDist ((10 : ℤ), (0 : ℤ)) 0 = 10 from ptDist_right10,
    show ptDist ((-10 : ℤ), (0 : ℤ)) 0 = 10 from ptDist_left10]

theorem polar_axis_sorted_eval :
    List.insertionSort Detect.byAngleAsc
        [(⟨((0 : ℤ), (-10 : ℤ)), -(Real.pi / 2), 10⟩ : Detect.Candidate ℝ),
          ⟨((10 : ℤ), (0 : ℤ)), 0, 10⟩,
          ⟨((-10 : ℤ), (0 : ℤ)), Real.pi, 10⟩] =
      [⟨((0 : ℤ), (-10 : ℤ)), -(Real.pi / 2), 10⟩,
        ⟨((10 : ℤ), (0 : ℤ)), 0, 10⟩,
        ⟨((-10 : ℤ), (0 : ℤ)), Real.pi, 10⟩] := by
  apply List.Sorted.insertionSort_eq
  have hpi := Real.pi_pos
  refine List.Pairwise.cons ?_ (List.Pairwise.cons ?_ (List.Pairwise.cons ?_ List.Pairwise.nil))
  · intro b hb
    rcases List.mem_cons.mp hb with rfl | hb
    · show -(Real.pi / 2) ≤ (0 : ℝ)
      linarith
    · rcases List.mem_singleton.mp hb with rfl
      show -(Real.pi / 2) ≤ Real.pi
      linarith
  · intro b hb
    rcases List.mem_singleton.mp hb with rfl
    show (0 : ℝ) ≤ Real.pi
    linarith
  · intro b hb
    exact absurd hb (List.not_mem_nil b)

theorem polar_axis_no_gap1 :
    ¬ Detect.gapSmall Real.pi
      (⟨((0 : ℤ), (-10 : ℤ)), -(Real.pi / 2), 10⟩ : Detect.Candidate ℝ)
      ⟨((10 : ℤ), (0 : ℤ)), 0, 10⟩ := by
  unfold Detect.gapSmall
  have hpi := Real.pi_gt_three
  have h : (0 : ℝ) - -(Real.pi / 2) = Real.pi / 2 := by ring
  simp only [h]
  rw [Detect.wrapGap_eval_mid Real.pi (Real.pi / 2) (by linarith) (by linarith)]
  rw [abs_of_nonneg (by linarith)]
  intro hlt
  linarith

theorem polar_axis_no_gap2 :
    ¬ Detect.gapSmall Real.pi
      (⟨((10 : ℤ), (0 : ℤ)), 0, 10⟩ : Detect.Candidate ℝ)
      ⟨((-10 : ℤ), (0 : ℤ)), Real.pi, 10⟩ := by
  unfold Detect.gapSmall
  have hpi := Real.pi_gt_three
  have h : Real.pi - (0 : ℝ) = Real.pi := by ring
  simp only [h]
  rw [Detect.wrapGap_eval_mid Real.pi Real.pi (by linarith) le_rfl]
  rw [abs_of_nonneg (by linarith)]
  intro hlt
  linarith

/-- C1, counterexample: the HullAngularClusterStrategy script applies neither
the 5-cap nor the ascending-x sort.  On the palm center (0,0) with palm radius
2 and the hull points (0,-10), (10,0), (-10,0) (all passing the distance and
vertical filters, with angles -pi/2, 0 and pi), the pipeline returns the three
points in angle order with x coordinates 0, 10, -10, which is not sorted
ascending by x, refuting the claim that for every strategy the final set is
sorted ascending by x. -/
theorem C1_counterexample :
    detect_fingers_polar ((0 : ℤ), (0 : ℤ)) 2
        [((0 : ℤ), (-10 : ℤ)), ((10 : ℤ), (0 : ℤ)), ((-10 : ℤ), (0 : ℤ))] =
      [((0 : ℤ), (-10 : ℤ)), ((10 : ℤ), (0 : ℤ)), ((-10 : ℤ), (0 : ℤ))] ∧
    ¬ List.Sorted Detect.byXAsc
        (detect_fingers_polar ((0 : ℤ), (0 : ℤ)) 2
          [((0 : ℤ), (-10 : ℤ)), ((10 : ℤ), (0 : ℤ)), ((-10 : ℤ), (0 : ℤ))]) := by
  have heval : detect_fingers_polar ((0 : ℤ), (0 : ℤ)) 2
      [((0 : ℤ), (-10 : ℤ)), ((10 : ℤ), (0 : ℤ)), ((-10 : ℤ), (0 : ℤ))] =
      [((0 : ℤ), (-10 : ℤ)), ((10 : ℤ), (0 : ℤ)), ((-10 : ℤ), (0 : ℤ))] := by
    unfold detect_fingers_polar Detect.detect_fingers_polar_core
    rw [polar_axis_candidates_eval, polar_axis_sorted_eval]
    unfold Detect.mergedOf
    simp only [Detect.clustersOf, Detect.clustersFrom]
    rw [if_neg polar_axis_no_gap1, if_neg polar_axis_no_gap2]
    simp [Detect.maxByDist, Detect.maxFromBy]
  refine ⟨heval, ?_⟩
  rw [heval]
  decide

namespace Detect

variable {α : Type} [LinearOrderedField α]

/-- Evaluation of the wrap when the difference is below -pi: one upward
correction fires. -/
theorem wrapGap_eval_low (piVal x : α) (h1 : x < -piVal) (h2 : x + 2 * piVal ≤ piVal) :
    wrapGap piVal x = |x + 2 * piVal| := by
  simp only [wrapGap]
  rw [if_pos h1, if_neg (not_lt.mpr h2)]

end Detect

theorem sqrt10001_ge : (100 : ℝ) ≤ Real.sqrt 10001 := by
  have h : Real.sqrt 10000 = 100 := real_sqrt_of_sq 10000 100 (by norm_num) (by norm_num)
  calc (100 : ℝ) = Real.sqrt 10000 := h.symm
    _ ≤ Real.sqrt 10001 := Real.sqrt_le_sqrt (by norm_num)

theorem sqrt10001_pos : (0 : ℝ) < Real.sqrt 10001 := by
  have := sqrt10001_ge
  linarith

theorem seam_s_pos : (0 : ℝ) < 1 / Real.sqrt 10001 :=
  div_pos one_pos sqrt10001_pos

theorem seam_s_le : 1 / Real.sqrt 10001 ≤ 1 / 100 :=
  one_div_le_one_div_of_le (by norm_num) sqrt10001_ge

theorem seam_arcsin_nonneg : 0 ≤ Real.arcsin (1 / Real.sqrt 10001) :=
  Real.arcsin_nonneg.mpr seam_s_pos.le

theorem seam_arcsin_lt : Real.arcsin (1 / Real.sqrt 10001) < 3 / 20 := by
  by_contra hcon
  push_neg at hcon
  have hpi := Real.pi_gt_three
  have hmem1 : (3 / 20 : ℝ) ∈ Set.Icc (-(Real.pi / 2)) (Real.pi / 2) := by
    constructor <;> nlinarith
  have hmem2 : Real.arcsin (1 / Real.sqrt 10001) ∈ Set.Icc (-(Real.pi / 2)) (Real.pi / 2) :=
    Real.arcsin_mem_Icc _
  have hs_le := seam_s_le
  have hs_pos := seam_s_pos
  have hsin_le : Real.sin (3 / 20) ≤ Real.sin (Real.arcsin (1 / Real.sqrt 10001)) :=
    Real.strictMonoOn_sin.monotoneOn hmem1 hmem2 hcon
  rw [Real.sin_arcsin (by linarith) (by linarith)] at hsin_le
  have hsin_gt : (3 / 20 : ℝ) - (3 / 20) ^ 3 / 4 < Real.sin (3 / 20) :=
    Real.sin_gt_sub_cube (by norm_num) (by norm_num)
  have hnum : (1 / 100 : ℝ) < (3 / 20 : ℝ) - (3 / 20) ^ 3 / 4 := by norm_num
  linarith

theorem abs_seam_low : Complex.abs ⟨-100, -1⟩ = Real.sqrt 10001 := by
  rw [Complex.abs_apply, Complex.normSq_apply]
  norm_num

theorem abs_seam_high : Complex.abs ⟨-100, 1⟩ = Real.sqrt 10001 := by
  rw [Complex.abs_apply, Complex.normSq_apply]
  norm_num

theorem atan2_seam_low :
    atan2 (-1 : ℝ) (-100) = Real.arcsin (1 / Real.sqrt 10001) - Real.pi := by
  unfold atan2
  rw [Complex.arg_of_re_neg_of_im_neg (by norm_num) (by norm_num)]
  have him : (-(⟨-100, -1⟩ : ℂ)).im = 1 := by simp
  rw [him, abs_seam_low]

theorem atan2_seam_high :
    atan2 (1 : ℝ) (-100) = Real.pi - Real.arcsin (1 / Real.sqrt 10001) := by
  unfold atan2
  rw [Complex.arg_of_re_neg_of_im_nonneg (by norm_num) (by norm_num)]
  have him : (-(⟨-100, 1⟩ : ℂ)).im = -1 := by simp
  rw [him, abs_seam_high,
    show (-1 : ℝ) / Real.sqrt 10001 = -(1 / Real.sqrt 10001) by ring,
    Real.arcsin_neg]
  ring

theorem atan2_seam_mid : atan2 (0 : ℝ) 100 = 0 :=
  arg_mk_pos_real 100 (by norm_num)

theorem ptDist_seam_low : ptDist ((-100 : ℤ), (-1 : ℤ)) ((0 : ℤ), (0 : ℤ)) = Real.sqrt 10001 := by
  unfold ptDist
  norm_num

theorem ptDist_seam_mid : ptDist ((100 : ℤ), (0 : ℤ)) ((0 : ℤ), (0 : ℤ)) = 100 := by
  unfold ptDist
  norm_num
  exact real_sqrt_of_sq 10000 100 (by norm_num) (by norm_num)

theorem ptDist_seam_high : ptDist ((-100 : ℤ), (1 : ℤ)) ((0 : ℤ), (0 : ℤ)) = Real.sqrt 10001 := by
  unfold ptDist
  norm_num

theorem seam_dist_cond : (4 : ℝ) * (3 / 2) < Real.sqrt 10001 := by
  have := sqrt10001_ge
  linarith

theorem polar_seam_candidates_eval :
    Detect.polarCandidates ((0 : ℤ), (0 : ℤ)) (4 : ℝ)
        (fun p => atan2 ((p.2 - (0 : ℤ) : ℤ) : ℝ) ((p.1 - (0 : ℤ) : ℤ) : ℝ))
        (fun p => ptDist p ((0 : ℤ), (0 : ℤ)))
        [((-100 : ℤ), (-1 : ℤ)), ((100 : ℤ), (0 : ℤ)), ((-100 : ℤ), (1 : ℤ))] =
      [⟨((-100 : ℤ), (-1 : ℤ)), Real.arcsin (1 / Real.sqrt 10001) - Real.pi, Real.sqrt 10001⟩,
        ⟨((100 : ℤ), (0 : ℤ)), 0, 100⟩,
        ⟨((-100 : ℤ), (1 : ℤ)), Real.pi - Real.arcsin (1 / Real.sqrt 10001), Real.sqrt 10001⟩] := by
  simp only [Detect.polarCandidates, List.filterMap_cons, List.filterMap_nil]
  norm_num [atan2_seam_low, atan2_seam_mid, atan2_seam_high,
    show ptDist ((-100 : ℤ), (-1 : ℤ)) 0 = Real.sqrt 10001 from ptDist_seam_low,
    show ptDist ((100 : ℤ), (0 : ℤ)) 0 = 100 from ptDist_seam_mid,
    show ptDist ((-100 : ℤ), (1 : ℤ)) 0 = Real.sqrt 10001 from ptDist_seam_high,
    show (6 : ℝ) < Real.sqrt 10001 by linarith [sqrt10001_ge]]

theorem polar_seam_sorted_eval :
    List.insertionSort Detect.byAngleAsc
        [(⟨((-100 : ℤ), (-1 : ℤ)), Real.arcsin (1 / Real.sqrt 10001) - Real.pi,
            Real.sqrt 10001⟩ : Detect.Candidate ℝ),
          ⟨((100 : ℤ), (0 : ℤ)), 0, 100⟩,
          ⟨((-100 : ℤ), (1 : ℤ)), Real.pi - Real.arcsin (1 / Real.sqrt 10001),
            Real.sqrt 10001⟩] =
      [⟨((-100 : ℤ), (-1 : ℤ)), Real.arcsin (1 / Real.sqrt 10001) - Real.pi, Real.sqrt 10001⟩,
        ⟨((100 : ℤ), (0 : ℤ)), 0, 100⟩,
        ⟨((-100 : ℤ), (1 : ℤ)), Real.pi - Real.arcsin (1 / Real.sqrt 10001),
          Real.sqrt 10001⟩] := by
  apply List.Sorted.insertionSort_eq
  have hpi := Real.pi_gt_three
  have ha1 := seam_arcsin_nonneg
  have ha2 := seam_arcsin_lt
  refine List.Pairwise.cons ?_ (List.Pairwise.cons ?_ (List.Pairwise.cons ?_ List.Pairwise.nil))
  · intro b hb
    rcases List.mem_cons.mp hb with rfl | hb
    · show Real.arcsin (1 / Real.sqrt 10001) - Real.pi ≤ (0 : ℝ)
      linarith
    · rcases List.mem_singleton.mp hb with rfl
      show Real.arcsin (1 / Real.sqrt 10001) - Real.pi ≤
        Real.pi - Real.arcsin (1 / Real.sqrt 10001)
      linarith
  · intro b hb
    rcases List.mem_singleton.mp hb with rfl
    show (0 : ℝ) ≤ Real.pi - Real.arcsin (1 / Real.sqrt 10001)
    linarith
  · intro b hb
    exact absurd hb (List.not_mem_nil b)

theorem polar_seam_no_gap1 :
    ¬ Detect.gapSmall Real.pi
      (⟨((-100 : ℤ), (-1 : ℤ)), Real.arcsin (1 / Real.sqrt 10001) - Real.pi,
          Real.sqrt 10001⟩ : Detect.Candidate ℝ)
      ⟨((100 : ℤ), (0 : ℤ)), 0, 100⟩ := by
  unfold Detect.gapSmall
  have hpi := Real.pi_gt_three
  have ha1 := seam_arcsin_nonneg
  have ha2 := seam_arcsin_lt
  have h : (0 : ℝ) - (Real.arcsin (1 / Real.sqrt 10001) - Real.pi) =
      Real.pi - Real.arcsin (1 / Real.sqrt 10001) := by ring
  show Detect.wrapGap Real.pi ((0 : ℝ) - (Real.arcsin (1 / Real.sqrt 10001) - Real.pi)) <
      3 / 10 → False
  rw [h, Detect.wrapGap_eval_mid Real.pi _ (by linarith) (by linarith),
    abs_of_nonneg (by linarith)]
  intro hlt
  linarith

theorem polar_seam_no_gap2 :
    ¬ Detect.gapSmall Real.pi
      (⟨((100 : ℤ), (0 : ℤ)), 0, 100⟩ : Detect.Candidate ℝ)
      ⟨((-100 : ℤ), (1 : ℤ)), Real.pi - Real.arcsin (1 / Real.sqrt 10001),
        Real.sqrt 10001⟩ := by
  unfold Detect.gapSmall
  have hpi := Real.pi_gt_three
  have ha1 := seam_arcsin_nonneg
  have ha2 := seam_arcsin_lt
  have h : (Real.pi - Real.arcsin (1 / Real.sqrt 10001)) - (0 : ℝ) =
      Real.pi - Real.arcsin (1 / Real.sqrt 10001) := by ring
  show Detect.wrapGap Real.pi
      ((Real.pi - Real.arcsin (1 / Real.sqrt 10001)) - (0 : ℝ)) < 3 / 10 → False
  rw [h, Detect.wrapGap_eval_mid Real.pi _ (by linarith) (by linarith),
    abs_of_nonneg (by linarith)]
  intro hlt
  linarith

/-- C2, counterexample: on the palm center (0,0) with palm radius 4 and hull
points (-100,-1), (100,0), (-100,1), all three points survive the filters.
The two seam points (-100,-1) and (-100,1) have angles just below pi and just
above -pi: they are circularly adjacent among the surviving candidates and
their circular (wrapped) angular gap is below the 0.3 threshold, so by the
claim they would form a single cluster yielding exactly one candidate.  The
code instead walks the linearly angle-sorted list, where the candidate at
angle 0 separates them, and returns all three points: the seam-straddling
group yields two candidates, refuting the claim. -/
theorem C2_counterexample :
    detect_fingers_polar ((0 : ℤ), (0 : ℤ)) 4
        [((-100 : ℤ), (-1 : ℤ)), ((100 : ℤ), (0 : ℤ)), ((-100 : ℤ), (1 : ℤ))] =
      [((-100 : ℤ), (-1 : ℤ)), ((100 : ℤ), (0 : ℤ)), ((-100 : ℤ), (1 : ℤ))] ∧
    Detect.wrapGap Real.pi
        (atan2 (-1 : ℝ) (-100) - atan2 (1 : ℝ) (-100)) < 3 / 10 := by
  have hpi := Real.pi_gt_three
  have ha1 := seam_arcsin_nonneg
  have ha2 := seam_arcsin_lt
  constructor
  · unfold detect_fingers_polar Detect.detect_fingers_polar_core
    rw [polar_seam_candidates_eval, polar_seam_sorted_eval]
    unfold Detect.mergedOf
    simp only [Detect.clustersOf, Detect.clustersFrom]
    rw [if_neg polar_seam_no_gap1, if_neg polar_seam_no_gap2]
    simp [Detect.maxByDist, Detect.maxFromBy]
  · rw [atan2_seam_low, atan2_seam_high]
    have hx : Real.arcsin (1 / Real.sqrt 10001) - Real.pi -
        (Real.pi - Real.arcsin (1 / Real.sqrt 10001)) =
        2 * Real.arcsin (1 / Real.sqrt 10001) - 2 * Real.pi := by ring
    rw [hx, Detect.wrapGap_eval_low Real.pi _ (by linarith) (by linarith)]
    rw [show 2 * Real.arcsin (1 / Real.sqrt 10001) - 2 * Real.pi + 2 * Real.pi =
        2 * Real.arcsin (1 / Real.sqrt 10001) by ring]
    rw [abs_of_nonneg (by linarith)]
    linarith

namespace Detect

variable {α : Type} [LinearOrderedField α]

theorem getD_replicate (n : ℕ) (v : α) (i : ℕ) :
    (List.replicate n v).getD i 0 = if i < n then v else 0 := by
  by_cases h : i < n
  · rw [if_pos h, List.getD_eq_getElem _ _ (by simpa using h)]
    simp
  · rw [if_neg h]
    exact List.getD_eq_default _ _ (by simpa using not_lt.mp h)

theorem padWrap_replicate (n : ℕ) (v : α) (hn : 10 ≤ n) :
    padWrap (List.replicate n v) = List.replicate (n + 20) v := by
  unfold padWrap
  rw [List.length_replicate, List.drop_replicate, List.take_replicate,
    List.append_replicate_replicate, List.append_replicate_replicate]
  congr 1
  omega

theorem smooth_replicate (n : ℕ) (v : α) (hn : 10 ≤ n) :
    smooth (List.replicate n v) = List.replicate n v := by
  unfold smooth
  rw [List.length_replicate, padWrap_replicate n v hn]
  apply List.eq_replicate_iff.mpr
  refine ⟨by simp, ?_⟩
  intro b hb
  obtain ⟨i, hi, rfl⟩ := List.mem_map.mp hb
  rw [List.mem_range] at hi
  rw [List.drop_replicate, List.take_replicate]
  have hmin : min 21 (n + 20 - i) = 21 := by omega
  rw [hmin, List.sum_replicate, nsmul_eq_mul]
  push_cast
  exact mul_div_cancel_left₀ v (by norm_num)

theorem localMaxFrom_flat_nil (x : List α)
    (hf : ∀ i, 0 < i → i < x.length - 1 → ¬ x.getD (i - 1) 0 < x.getD i 0) :
    ∀ k i, x.length - 1 - i ≤ k → 0 < i → localMaxFrom x (x.length - 1) i = [] := by
  intro k
  induction k with
  | zero =>
    intro i hk hi
    rw [localMaxFrom.eq_def, dif_neg (by omega : ¬ i < x.length - 1)]
  | succ k ih =>
    intro i hk hi
    rw [localMaxFrom.eq_def]
    by_cases h1 : i < x.length - 1
    · rw [dif_pos h1, if_neg (hf i hi h1)]
      exact ih (i + 1) (by omega) (by omega)
    · rw [dif_neg h1]

theorem localMaxima_replicate (n : ℕ) (v : α) :
    localMaxima (List.replicate n v) = [] := by
  unfold localMaxima
  rw [List.length_replicate]
  have hf : ∀ i, 0 < i → i < (List.replicate n v).length - 1 →
      ¬ (List.replicate n v).getD (i - 1) 0 < (List.replicate n v).getD i 0 := by
    intro i hi0 hilt
    rw [List.length_replicate] at hilt
    rw [getD_replicate, getD_replicate, if_pos (by omega), if_pos (by omega)]
    exact lt_irrefl v
  have := localMaxFrom_flat_nil (List.replicate n v) hf n 1
  rw [List.length_replicate] at this
  exact this (by omega) (by omega)

theorem findPeaksFull_nil (x : List α) (h : α) (d : ℕ)
    (hlm : localMaxima x = []) : findPeaksFull x h d = [] := by
  unfold findPeaksFull heightFiltered
  rw [hlm]
  simp [selectByDistance]

end Detect

namespace Defects

theorem ptDist_eq_norm (p q : Point) : ptDist p q = ‖toC p - toC q‖ := by
  unfold ptDist toC
  rw [Complex.norm_eq_abs, Complex.abs_apply, Complex.normSq_apply]
  congr 1
  simp only [Complex.sub_re, Complex.sub_im]
  push_cast
  ring

theorem ptDist_nonneg (p q : Point) : 0 ≤ ptDist p q := Real.sqrt_nonneg _

theorem ptDist_pos_of_ne (p q : Point) (h : p ≠ q) : 0 < ptDist p q := by
  rw [ptDist_eq_norm, norm_pos_iff]
  intro hz
  apply h
  have heq : toC p = toC q := sub_eq_zero.mp hz
  unfold toC at heq
  rw [Complex.ext_iff] at heq
  simp only at heq
  have h1 : p.1 = q.1 := Int.cast_injective heq.1
  have h2 : p.2 = q.2 := Int.cast_injective heq.2
  exact Prod.ext h1 h2

theorem ptDist_comm (p q : Point) : ptDist p q = ptDist q p := by
  rw [ptDist_eq_norm, ptDist_eq_norm, ← norm_neg]
  congr 1
  ring

theorem ptDist_triangle (p q r : Point) : ptDist p r ≤ ptDist p q + ptDist q r := by
  rw [ptDist_eq_norm, ptDist_eq_norm, ptDist_eq_norm]
  have h : toC p - toC r = (toC p - toC q) + (toC q - toC r) := by ring
  rw [h]
  exact norm_add_le _ _

/-- C9: under the precondition that the defect's deepest point differs from
both its start and its end point, the law-of-cosines divisor 2*b*c of
detect_fingers_v1.py line 74 is nonzero and the computed ratio lies in
[-1, 1], so the division and the subsequent arccos are well-defined; the code
itself contains no guard for the coincident case, this precondition is the
exact missing hypothesis. -/
theorem C9_angle_well_defined (cnt : List Point) (dft : Defect)
    (hfs : cnt.getD dft.f (0, 0) ≠ cnt.getD dft.s (0, 0))
    (hfe : cnt.getD dft.f (0, 0) ≠ cnt.getD dft.e (0, 0)) :
    2 * bLen cnt dft * cLen cnt dft ≠ 0 ∧
      -1 ≤ cosVal cnt dft ∧ cosVal cnt dft ≤ 1 := by
  have hb : 0 < bLen cnt dft := ptDist_pos_of_ne _ _ hfs
  have hc : 0 < cLen cnt dft := ptDist_pos_of_ne _ _ (Ne.symm hfe)
  have ha : 0 ≤ aLen cnt dft := ptDist_nonneg _ _
  have htri1 : aLen cnt dft ≤ bLen cnt dft + cLen cnt dft := by
    unfold aLen bLen cLen
    calc ptDist (cnt.getD dft.e (0, 0)) (cnt.getD dft.s (0, 0))
        ≤ ptDist (cnt.getD dft.e (0, 0)) (cnt.getD dft.f (0, 0)) +
          ptDist (cnt.getD dft.f (0, 0)) (cnt.getD dft.s (0, 0)) :=
        ptDist_triangle _ _ _
      _ = ptDist (cnt.getD dft.f (0, 0)) (cnt.getD dft.s (0, 0)) +
          ptDist (cnt.getD dft.e (0, 0)) (cnt.getD dft.f (0, 0)) := by ring
  have htri2 : bLen cnt dft ≤ cLen cnt dft + aLen cnt dft := by
    unfold aLen bLen cLen
    calc ptDist (cnt.getD dft.f (0, 0)) (cnt.getD dft.s (0, 0))
        ≤ ptDist (cnt.getD dft.f (0, 0)) (cnt.getD dft.e (0, 0)) +
          ptDist (cnt.getD dft.e (0, 0)) (cnt.getD dft.s (0, 0)) :=
        ptDist_triangle _ _ _
      _ = ptDist (cnt.getD dft.e (0, 0)) (cnt.getD dft.f (0, 0)) +
          ptDist (cnt.getD dft.e (0, 0)) (cnt.getD dft.s (0, 0)) := by
          rw [ptDist_comm]
  have htri3 : cLen cnt dft ≤ bLen cnt dft + aLen cnt dft := by
    unfold aLen bLen cLen
    calc ptDist (cnt.getD dft.e (0, 0)) (cnt.getD dft.f (0, 0))
        ≤ ptDist (cnt.getD dft.e (0, 0)) (cnt.getD dft.s (0, 0)) +
          ptDist (cnt.getD dft.s (0, 0)) (cnt.getD dft.f (0, 0)) :=
        ptDist_triangle _ _ _
      _ = ptDist (cnt.getD dft.f (0, 0)) (cnt.getD dft.s (0, 0)) +
          ptDist (cnt.getD dft.e (0, 0)) (cnt.getD dft.s (0, 0)) := by
          rw [ptDist_comm (cnt.getD dft.s (0, 0)) (cnt.getD dft.f (0, 0))]
          ring
  have hden : (0 : ℝ) < 2 * bLen cnt dft * cLen cnt dft := by positivity
  refine ⟨ne_of_gt hden, ?_, ?_⟩
  · unfold cosVal
    rw [le_div_iff hden]
    nlinarith [mul_nonneg (sub_nonneg.mpr htri1)
      (by linarith : (0 : ℝ) ≤ aLen cnt dft + bLen cnt dft + cLen cnt dft)]
  · unfold cosVal
    rw [div_le_one hden]
    nlinarith [mul_nonneg (sub_nonneg.mpr htri2)
        (by linarith : (0 : ℝ) ≤ aLen cnt dft + bLen cnt dft + cLen cnt dft),
      mul_nonneg (sub_nonneg.mpr htri3)
        (by linarith : (0 : ℝ) ≤ aLen cnt dft + bLen cnt dft + cLen cnt dft)]

/-- Witness for C9_angle_well_defined at a concrete nondegenerate defect. -/
theorem C9_angle_well_defined_witness :
    ([((0 : ℤ), (0 : ℤ)), ((5 : ℤ), (0 : ℤ)), ((0 : ℤ), (3 : ℤ))] : List Point).getD 2 (0, 0) ≠
        ([((0 : ℤ), (0 : ℤ)), ((5 : ℤ), (0 : ℤ)), ((0 : ℤ), (3 : ℤ))] : List Point).getD 0 (0, 0) ∧
      (2 * bLen [((0 : ℤ), (0 : ℤ)), ((5 : ℤ), (0 : ℤ)), ((0 : ℤ), (3 : ℤ))] ⟨0, 1, 2, 0⟩ *
          cLen [((0 : ℤ), (0 : ℤ)), ((5 : ℤ), (0 : ℤ)), ((0 : ℤ), (3 : ℤ))] ⟨0, 1, 2, 0⟩ ≠ 0 ∧
        -1 ≤ cosVal [((0 : ℤ), (0 : ℤ)), ((5 : ℤ), (0 : ℤ)), ((0 : ℤ), (3 : ℤ))] ⟨0, 1, 2, 0⟩ ∧
        cosVal [((0 : ℤ), (0 : ℤ)), ((5 : ℤ), (0 : ℤ)), ((0 : ℤ), (3 : ℤ))] ⟨0, 1, 2, 0⟩ ≤ 1) :=
  ⟨by decide,
    C9_angle_well_defined [((0 : ℤ), (0 : ℤ)), ((5 : ℤ), (0 : ℤ)), ((0 : ℤ), (3 : ℤ))]
      ⟨0, 1, 2, 0⟩ (by decide) (by decide)⟩

end Defects

namespace Defects

open Classical in
theorem defectCount_eq_filter_length (cnt : List Point) (ds : List Defect) :
    defectCount cnt ds = (valleys cnt ds).length := by
  unfold defectCount valleys
  have hgen : ∀ (l : List Defect) (acc : ℕ),
      l.foldl (fun acc dft => if isValley cnt dft then acc + 1 else acc) acc =
        acc + (l.filter (fun dft => decide (isValley cnt dft))).length := by
    intro l
    induction l with
    | nil => intro acc; simp
    | cons dft l ih =>
      intro acc
      simp only [List.foldl_cons, List.filter_cons]
      by_cases h : isValley cnt dft
      · simp [h, ih]
        omega
      · simp [h, ih]
  rw [hgen]
  simp

/-- C6: the valley-counting loop of ConvexityDefectStrategy counts exactly
the defects whose included angle at the deepest point (law of cosines, in the
source's degree scale) is at most 90 and whose fixed-point depth exceeds
3000, and the estimated finger count is that number plus one. -/
theorem C6_count_is_valleys_plus_one (cnt : List Point) (ds : List Defect) :
    estimatedFingers cnt (some ds) = (valleys cnt ds).length + 1 ∧
      ∀ dft, dft ∈ valleys cnt ds ↔
        dft ∈ ds ∧ angleDeg cnt dft ≤ 90 ∧ 3000 < dft.d := by
  constructor
  · show defectCount cnt ds + 1 = (valleys cnt ds).length + 1
    rw [defectCount_eq_filter_length]
  · intro dft
    unfold valleys
    rw [List.mem_filter]
    simp only [decide_eq_true_eq]
    unfold isValley
    tauto

/-- C8: ConvexityDefectStrategy can never report zero fingers: the estimate
is always at least 1; it is exactly 1 when cv2.convexityDefects reports no
defect table at all (convex contour) and when no reported defect qualifies as
a valley.  RadialPeakStrategy by contrast returns a valid empty set on a
protrusion-free disk: on a constant radial signal (24 contour points all at
distance 10 from the palm center, radius 10) its pipeline tail returns no
fingertip at all. -/
theorem C8_count_at_least_one (cnt : List Point) :
    (∀ od : Option (List Defect), 1 ≤ estimatedFingers cnt od) ∧
      estimatedFingers cnt none = 1 ∧
      (∀ ds : List Defect, (∀ dft ∈ ds, ¬ isValley cnt dft) →
        estimatedFingers cnt (some ds) = 1) ∧
      Detect.detect_fingers_peaks_core ((0 : ℤ), (0 : ℤ)) (10 : ℚ)
        (fun _ => 10) (List.replicate 24 ((0 : ℤ), (0 : ℤ))) = [] := by
  refine ⟨?_, rfl, ?_, ?_⟩
  · intro od
    unfold estimatedFingers
    omega
  · intro ds hds
    show defectCount cnt ds + 1 = 1
    rw [defectCount_eq_filter_length]
    have hnil : valleys cnt ds = [] := by
      unfold valleys
      rw [List.filter_eq_nil_iff]
      intro dft hdft
      simpa using hds dft hdft
    rw [hnil]
    rfl
  · unfold Detect.detect_fingers_peaks_core Detect.yFilteredFingers
    rw [List.map_replicate, Detect.smooth_replicate 24 10 (by norm_num),
      Detect.findPeaksFull_nil _ _ _ (Detect.localMaxima_replicate 24 10)]
    simp [Detect.selectFinal]

/-- Witness for C8_count_at_least_one on the empty defect list. -/
theorem C8_count_at_least_one_witness :
    (∀ dft ∈ ([] : List Defect), ¬ isValley [] dft) ∧
      estimatedFingers [] (some []) = 1 :=
  ⟨fun dft hdft => absurd hdft (List.not_mem_nil dft),
    (C8_count_at_least_one []).2.2.1 []
      (fun dft hdft => absurd hdft (List.not_mem_nil dft))⟩

end Defects

namespace Detect

variable {α : Type} [LinearOrderedField α]

theorem selectFinal_subset (dKey : Point → α) (fingers : List Point) :
    ∀ p ∈ selectFinal dKey fingers, p ∈ fingers := by
  intro p hp
  unfold selectFinal at hp
  have hp2 := (List.perm_insertionSort byXAsc _).mem_iff.mp hp
  by_cases h : 5 < fingers.length
  · rw [if_pos h] at hp2
    have hp3 := List.take_subset 5 _ hp2
    exact (List.perm_insertionSort (byDistDesc dKey) fingers).mem_iff.mp hp3
  · rwa [if_neg h] at hp2

theorem yFilteredFingers_y_lt (c : Point) (palmR : α) (dKey : Point → α)
    (pts : List Point) :
    ∀ p ∈ yFilteredFingers c palmR dKey pts, (p.2 : α) < (c.2 : α) + palmR := by
  intro p hp
  unfold yFilteredFingers at hp
  obtain ⟨i, -, hsome⟩ := List.mem_filterMap.mp hp
  rcases ho : pts[i]? with _ | q
  · rw [ho] at hsome
    simp at hsome
  · rw [ho] at hsome
    simp only [Option.some_bind] at hsome
    by_cases hcond : (q.2 : α) < (c.2 : α) + palmR
    · rw [if_pos hcond] at hsome
      obtain rfl := Option.some_inj.mp hsome
      exact hcond
    · rw [if_neg hcond] at hsome
      simp at hsome

theorem polarCandidates_y_lt (c : Point) (palmR : α) (angleOf dKey : Point → α)
    (hull : List Point) (hR : 0 ≤ palmR) :
    ∀ cand ∈ polarCandidates c palmR angleOf dKey hull,
      ((cand.pt.2 : ℤ) : α) < (c.2 : α) + palmR := by
  intro cand hcand
  unfold polarCandidates at hcand
  obtain ⟨pt, -, hsome⟩ := List.mem_filterMap.mp hcand
  by_cases h1 : palmR * (3 / 2) < dKey pt
  · rw [if_pos h1] at hsome
    by_cases h2 : (pt.2 : α) < (c.2 : α) + palmR * (1 / 2)
    · rw [if_pos h2] at hsome
      obtain rfl := Option.some_inj.mp hsome
      show ((pt.2 : ℤ) : α) < (c.2 : α) + palmR
      have hhalf : palmR * (1 / 2) ≤ palmR := by linarith
      linarith
    · rw [if_neg h2] at hsome
      simp at hsome
  · rw [if_neg h1] at hsome
    simp at hsome

theorem mergedOf_mem_candidates (piVal : α) (c : Point) (palmR : α)
    (angleOf dKey : Point → α) (hull : List Point) :
    ∀ f ∈ mergedOf piVal
        (List.insertionSort byAngleAsc (polarCandidates c palmR angleOf dKey hull)),
      f ∈ polarCandidates c palmR angleOf dKey hull := by
  intro f hf
  unfold mergedOf at hf
  obtain ⟨cl, hcl, hsome⟩ := List.mem_filterMap.mp hf
  obtain ⟨b, hb, hbmem, -⟩ := maxByDist_spec cl (clustersOf_ne_nil piVal _ cl hcl)
  have hfb : f = b := by
    rw [hb] at hsome
    exact (Option.some_inj.mp hsome).symm
  subst hfb
  have hflat : f ∈ (clustersOf piVal
      (List.insertionSort byAngleAsc (polarCandidates c palmR angleOf dKey hull))).flatten :=
    List.mem_flatten.mpr ⟨cl, hcl, hbmem⟩
  rw [clustersOf_flatten] at hflat
  exact (List.perm_insertionSort byAngleAsc _).mem_iff.mp hflat

/-- C7: every fingertip returned by the RadialPeakStrategy tail or by the
HullAngularClusterStrategy pipeline has a y coordinate strictly below
palm_center.y + palm_radius; candidates at or below that line are discarded
before selection (the radial strategy filters at exactly that line, the hull
strategy at the stricter line palm_center.y + palm_radius/2, which implies the
claimed bound whenever the palm radius is nonnegative). -/
theorem C7_vertical_position_bound (piVal : α) (c : Point) (palmR : α)
    (angleOf dKey : Point → α) (pts hull : List Point) (hR : 0 ≤ palmR) :
    (∀ p ∈ detect_fingers_peaks_core c palmR dKey pts,
        (p.2 : α) < (c.2 : α) + palmR) ∧
      ∀ p ∈ detect_fingers_polar_core piVal c palmR angleOf dKey hull,
        (p.2 : α) < (c.2 : α) + palmR := by
  constructor
  · intro p hp
    unfold detect_fingers_peaks_core at hp
    exact yFilteredFingers_y_lt c palmR dKey pts p (selectFinal_subset dKey _ p hp)
  · intro p hp
    unfold detect_fingers_polar_core at hp
    obtain ⟨f, hf, rfl⟩ := List.mem_map.mp hp
    exact polarCandidates_y_lt c palmR angleOf dKey hull hR f
      (mergedOf_mem_candidates piVal c palmR angleOf dKey hull f hf)

/-- Witness for C7_vertical_position_bound over the rationals. -/
theorem C7_vertical_position_bound_witness :
    (0 : ℚ) ≤ 1 ∧
      ((∀ p ∈ detect_fingers_peaks_core ((0 : ℤ), (0 : ℤ)) (1 : ℚ) (fun _ => 0) [],
          (p.2 : ℚ) < (((0 : ℤ), (0 : ℤ)).2 : ℚ) + 1) ∧
        ∀ p ∈ detect_fingers_polar_core 3 ((0 : ℤ), (0 : ℤ)) (1 : ℚ)
            (fun _ => 0) (fun _ => 0) [],
          (p.2 : ℚ) < (((0 : ℤ), (0 : ℤ)).2 : ℚ) + 1) :=
  ⟨by norm_num,
    C7_vertical_position_bound 3 ((0 : ℤ), (0 : ℤ)) 1 (fun _ => 0) (fun _ => 0)
      [] [] (by norm_num)⟩

end Detect

namespace Detect

variable {α : Type} [LinearOrderedField α]

theorem plateauEnd_ge (x : List α) (v : α) (iMax i : ℕ) : i ≤ plateauEnd x v iMax i :=
  Nat.le_add_right _ _

theorem plateauEnd_le (x : List α) (v : α) (iMax i : ℕ) (h : i ≤ iMax) :
    plateauEnd x v iMax i ≤ iMax := by
  unfold plateauEnd
  have h1 := (List.takeWhile_sublist
    (fun j => decide (x.getD j 0 = v)) (l := List.range' i (iMax - i))).length_le
  rw [List.length_range'] at h1
  omega

theorem takeWhile_range'_val (x : List α) (v : α) :
    ∀ (m i j : ℕ), i ≤ j →
      j < i + ((List.range' i m).takeWhile (fun k => decide (x.getD k 0 = v))).length →
      x.getD j 0 = v := by
  intro m
  induction m with
  | zero =>
    intro i j h1 h2
    simp only [List.range'] at h2
    simp at h2
    omega
  | succ m ih =>
    intro i j h1 h2
    rw [List.range'_succ] at h2
    by_cases hp : x.getD i 0 = v
    · rw [List.takeWhile_cons_of_pos (by simpa using hp)] at h2
      simp only [List.length_cons] at h2
      by_cases hij : j = i
      · rwa [hij]
      · exact ih (i + 1) j (by omega) (by omega)
    · rw [List.takeWhile_cons_of_neg (by simpa using hp)] at h2
      simp at h2
      omega

theorem takeWhile_range'_stop (x : List α) (v : α) :
    ∀ (m i : ℕ),
      ((List.range' i m).takeWhile (fun k => decide (x.getD k 0 = v))).length < m →
      ¬ x.getD (i + ((List.range' i m).takeWhile
          (fun k => decide (x.getD k 0 = v))).length) 0 = v := by
  intro m
  induction m with
  | zero => intro i h; omega
  | succ m ih =>
    intro i h
    rw [List.range'_succ] at h ⊢
    by_cases hp : x.getD i 0 = v
    · rw [List.takeWhile_cons_of_pos (by simpa using hp)] at h ⊢
      simp only [List.length_cons] at h ⊢
      have hres := ih (i + 1) (by omega)
      rw [show i + (((List.range' (i + 1) m).takeWhile
          (fun k => decide (x.getD k 0 = v))).length + 1) =
        (i + 1) + ((List.range' (i + 1) m).takeWhile
          (fun k => decide (x.getD k 0 = v))).length by omega]
      exact hres
    · rw [List.takeWhile_cons_of_neg (by simpa using hp)] at h ⊢
      simpa using hp

theorem plateauEnd_plateau_val (x : List α) (v : α) (iMax i : ℕ) :
    ∀ j, i ≤ j → j < plateauEnd x v iMax i → x.getD j 0 = v := by
  intro j h1 h2
  unfold plateauEnd at h2
  exact takeWhile_range'_val x v (iMax - i) i j h1 h2

theorem plateauEnd_stop_val (x : List α) (v : α) (iMax i : ℕ)
    (h : plateauEnd x v iMax i < iMax) : ¬ x.getD (plateauEnd x v iMax i) 0 = v := by
  unfold plateauEnd at h ⊢
  exact takeWhile_range'_stop x v (iMax - i) i (by omega)

theorem localMaxFrom_spec (x : List α) (iMax : ℕ) :
    ∀ (k i m : ℕ), iMax - i ≤ k → m ∈ localMaxFrom x iMax i →
      ∃ i0, i ≤ i0 ∧ i0 < iMax ∧
        x.getD (i0 - 1) 0 < x.getD i0 0 ∧
        x.getD (plateauEnd x (x.getD i0 0) iMax (i0 + 1)) 0 < x.getD i0 0 ∧
        m = (i0 + (plateauEnd x (x.getD i0 0) iMax (i0 + 1) - 1)) / 2 := by
  intro k
  induction k with
  | zero =>
    intro i m hk hm
    rw [localMaxFrom.eq_def, dif_neg (by omega : ¬ i < iMax)] at hm
    exact absurd hm (List.not_mem_nil m)
  | succ k ih =>
    intro i m hk hm
    rw [localMaxFrom.eq_def] at hm
    by_cases h1 : i < iMax
    · rw [dif_pos h1] at hm
      by_cases h2 : x.getD (i - 1) 0 < x.getD i 0
      · rw [if_pos h2] at hm
        simp only [] at hm
        by_cases h3 : x.getD (plateauEnd x (x.getD i 0) iMax (i + 1)) 0 < x.getD i 0
        · rw [if_pos h3] at hm
          rcases List.mem_cons.mp hm with rfl | hm'
          · exact ⟨i, le_refl i, h1, h2, h3, rfl⟩
          · have hge := plateauEnd_ge x (x.getD i 0) iMax (i + 1)
            obtain ⟨i0, hi0, rest⟩ :=
              ih (plateauEnd x (x.getD i 0) iMax (i + 1) + 1) m (by omega) hm'
            exact ⟨i0, by omega, rest⟩
        · rw [if_neg h3] at hm
          obtain ⟨i0, hi0, rest⟩ := ih (i + 1) m (by omega) hm
          exact ⟨i0, by omega, rest⟩
      · rw [if_neg h2] at hm
        obtain ⟨i0, hi0, rest⟩ := ih (i + 1) m (by omega) hm
        exact ⟨i0, by omega, rest⟩
    · rw [dif_neg h1] at hm
      exact absurd hm (List.not_mem_nil m)

theorem localMaxima_isLocalMax (x : List α) (m : ℕ) (hm : m ∈ localMaxima x) :
    0 < m ∧ m + 1 < x.length ∧
      x.getD (m - 1) 0 ≤ x.getD m 0 ∧ x.getD (m + 1) 0 ≤ x.getD m 0 := by
  unfold localMaxima at hm
  obtain ⟨i0, hge1, hlt, hrise, hfall, hmid⟩ :=
    localMaxFrom_spec x (x.length - 1) (x.length - 1) 1 m (by omega) hm
  have hia_ge : i0 + 1 ≤ plateauEnd x (x.getD i0 0) (x.length - 1) (i0 + 1) :=
    plateauEnd_ge x _ _ _
  have hia_le : plateauEnd x (x.getD i0 0) (x.length - 1) (i0 + 1) ≤ x.length - 1 :=
    plateauEnd_le x _ _ _ (by omega)
  have hval : ∀ j, i0 ≤ j → j < plateauEnd x (x.getD i0 0) (x.length - 1) (i0 + 1) →
      x.getD j 0 = x.getD i0 0 := by
    intro j hj1 hj2
    by_cases hj : j = i0
    · rw [hj]
    · exact plateauEnd_plateau_val x (x.getD i0 0) (x.length - 1) (i0 + 1) j
        (by omega) hj2
  have hm_lb : i0 ≤ m := by omega
  have hm_ub : m ≤ plateauEnd x (x.getD i0 0) (x.length - 1) (i0 + 1) - 1 := by omega
  have hxm : x.getD m 0 = x.getD i0 0 := hval m hm_lb (by omega)
  refine ⟨by omega, by omega, ?_, ?_⟩
  · by_cases h : m = i0
    · subst h
      exact le_of_lt hrise
    · have hprev : x.getD (m - 1) 0 = x.getD i0 0 := hval (m - 1) (by omega) (by omega)
      rw [hprev, hxm]
  · by_cases h : m + 1 < plateauEnd x (x.getD i0 0) (x.length - 1) (i0 + 1)
    · have hnext : x.getD (m + 1) 0 = x.getD i0 0 := hval (m + 1) (by omega) h
      rw [hnext, hxm]
    · have hm1 : m + 1 = plateauEnd x (x.getD i0 0) (x.length - 1) (i0 + 1) := by omega
      rw [hm1, hxm]
      exact le_of_lt hfall

end Detect

namespace Detect

variable {α : Type} [LinearOrderedField α]

theorem pruneAux_subset (d : ℕ) :
    ∀ (prio surv : List ℕ), ∀ j ∈ pruneAux d prio surv, j ∈ surv := by
  intro prio
  induction prio with
  | nil => intro surv j hj; exact hj
  | cons j0 rest ih =>
    intro surv j hj
    simp only [pruneAux] at hj
    by_cases h : j0 ∈ surv
    · rw [if_pos h] at hj
      exact List.mem_of_mem_filter (ih _ j hj)
    · rw [if_neg h] at hj
      exact ih surv j hj

theorem pruneAux_sep (d : ℕ) :
    ∀ (prio surv : List ℕ) (j : ℕ), j ∈ prio → j ∈ pruneAux d prio surv →
      ∀ k ∈ pruneAux d prio surv, k ≠ j → d ≤ Nat.dist k j := by
  intro prio
  induction prio with
  | nil => intro surv j hjp; exact absurd hjp (List.not_mem_nil j)
  | cons j0 rest ih =>
    intro surv j hjp hjm k hkm hkj
    simp only [pruneAux] at hjm hkm
    by_cases h : j0 ∈ surv
    · rw [if_pos h] at hjm hkm
      by_cases hjj0 : j = j0
      · subst hjj0
        have hk_surv : k ∈ surv.filter
            (fun k => k == j || decide (d ≤ Nat.dist k j)) :=
          pruneAux_subset d rest _ k hkm
        have hcond := (List.mem_filter.mp hk_surv).2
        simp only [Bool.or_eq_true, beq_iff_eq, decide_eq_true_eq] at hcond
        rcases hcond with h1 | h1
        · exact absurd h1 hkj
        · exact h1
      · have hjrest : j ∈ rest := by
          rcases List.mem_cons.mp hjp with h' | h'
          · exact absurd h' hjj0
          · exact h'
        exact ih _ j hjrest hjm k hkm hkj
    · rw [if_neg h] at hjm hkm
      by_cases hjj0 : j = j0
      · subst hjj0
        exact absurd (pruneAux_subset d rest surv j hjm) h
      · have hjrest : j ∈ rest := by
          rcases List.mem_cons.mp hjp with h' | h'
          · exact absurd h' hjj0
          · exact h'
        exact ih surv j hjrest hjm k hkm hkj

theorem selectByDistance_subset (x : List α) (d : ℕ) (peaks : List ℕ) :
    ∀ p ∈ selectByDistance x d peaks, p ∈ peaks := by
  intro p hp
  unfold selectByDistance at hp
  exact List.mem_of_mem_filter hp

theorem selectByDistance_sep (x : List α) (d : ℕ) (peaks : List ℕ) :
    ∀ p ∈ selectByDistance x d peaks, ∀ q ∈ selectByDistance x d peaks,
      q ≠ p → d ≤ Nat.dist q p := by
  intro p hp q hq hqp
  unfold selectByDistance at hp hq
  have hp2 := List.mem_filter.mp hp
  have hq2 := List.mem_filter.mp hq
  simp only [decide_eq_true_eq] at hp2 hq2
  have hp_prio : p ∈ List.insertionSort (byHeightDesc x) peaks :=
    (List.perm_insertionSort (byHeightDesc x) peaks).mem_iff.mpr hp2.1
  exact pruneAux_sep d _ peaks p hp_prio hp2.2 q hq2.2 hqp

theorem heightFiltered_mem (x : List α) (h : α) (peaks : List ℕ) :
    ∀ p ∈ heightFiltered x h peaks, p ∈ peaks ∧ h ≤ x.getD p 0 := by
  intro p hp
  unfold heightFiltered at hp
  have := List.mem_filter.mp hp
  simpa using this

end Detect

namespace Detect

variable {α : Type} [LinearOrderedField α]

theorem smooth_length (s : List α) : (smooth s).length = s.length := by
  simp [smooth]

theorem padWrap_length (s : List α) (hn : 10 ≤ s.length) :
    (padWrap s).length = s.length + 20 := by
  unfold padWrap
  simp only [List.length_append, List.length_drop, List.length_take]
  omega

theorem padWrap_getElem? (s : List α) (hn : 10 ≤ s.length) (p : ℕ)
    (hp : p < s.length + 20) :
    (padWrap s)[p]? = s[(p + s.length - 10) % s.length]? := by
  unfold padWrap
  have hdlen : (s.drop (s.length - 10)).length = 10 := by
    simp only [List.length_drop]
    omega
  rw [List.getElem?_append, List.getElem?_append]
  simp only [hdlen, List.length_append, List.length_drop]
  by_cases h1 : p < 10
  · rw [if_pos (by omega), if_pos h1, List.getElem?_drop]
    congr 1
    have hmod : (p + s.length - 10) % s.length = p + s.length - 10 :=
      Nat.mod_eq_of_lt (by omega)
    omega
  · by_cases h2 : p < s.length + 10
    · rw [if_pos (by omega), if_neg h1]
      congr 1
      have heq : p + s.length - 10 = (p - 10) + s.length := by omega
      rw [heq, Nat.add_mod_right, Nat.mod_eq_of_lt (by omega)]
    · rw [if_neg (by omega), List.getElem?_take, if_pos (by omega)]
      congr 1
      have heq : p + s.length - 10 = (p - s.length - 10) + 2 * s.length := by omega
      rw [heq, Nat.add_mul_mod_self_right, Nat.mod_eq_of_lt (by omega)]
      omega

theorem padWrap_getD (s : List α) (hn : 10 ≤ s.length) (p : ℕ)
    (hp : p < s.length + 20) :
    (padWrap s).getD p 0 = s.getD ((p + s.length - 10) % s.length) 0 := by
  rw [List.getD_eq_getElem?_getD, List.getD_eq_getElem?_getD,
    padWrap_getElem? s hn p hp]

theorem sum_take_drop_eq (l : List α) :
    ∀ (k i : ℕ), i + k ≤ l.length →
      ((l.drop i).take k).sum =
        ((List.range k).map (fun j => l.getD (i + j) 0)).sum := by
  intro k
  induction k with
  | zero => intro i h; simp
  | succ k ih =>
    intro i h
    rw [List.range_succ_eq_map, List.map_cons, List.sum_cons, List.map_map]
    rw [List.drop_eq_getElem_cons (show i < l.length by omega), List.take_succ_cons,
      List.sum_cons]
    have hdrop : List.drop i l = l[i] :: List.drop (i + 1) l :=
      List.drop_eq_getElem_cons (show i < l.length by omega)
    congr 1
    · rw [List.getD_eq_getElem l 0 (show i + 0 < l.length by omega)]
      simp
    · rw [ih (i + 1) (by omega)]
      congr 1
      apply List.map_congr_left
      intro j _
      simp only [Function.comp]
      congr 1
      omega

theorem smooth_getD (s : List α) (hn : 10 ≤ s.length) (i : ℕ) (hi : i < s.length) :
    (smooth s).getD i 0 =
      ((List.range 21).map
        (fun j => s.getD ((i + j + s.length - 10) % s.length) 0)).sum / 21 := by
  unfold smooth
  rw [List.getD_eq_getElem _ _ (by simpa using hi)]
  rw [List.getElem_map, List.getElem_range]
  congr 1
  rw [sum_take_drop_eq (padWrap s) 21 i (by rw [padWrap_length s hn]; omega)]
  congr 1
  apply List.map_congr_left
  intro j hj
  rw [List.mem_range] at hj
  rw [padWrap_getD s hn (i + j) (by omega)]

end Detect

namespace Detect

variable {α : Type} [LinearOrderedField α]

theorem natDist_cast_eq_abs (p q : ℕ) :
    ((Nat.dist q p : ℕ) : α) = |(p : α) - (q : α)| := by
  rcases le_total q p with h | h
  · rw [Nat.dist_eq_sub_of_le h, Nat.cast_sub h]
    rw [abs_of_nonneg (sub_nonneg.mpr (by exact_mod_cast h))]
  · rw [Nat.dist_eq_sub_of_le_right h, Nat.cast_sub h]
    rw [abs_of_nonpos (sub_nonpos.mpr (by exact_mod_cast h)), neg_sub]

theorem ceil_div20_cast_ge (n : ℕ) : (n : α) / 20 ≤ (((n + 19) / 20 : ℕ) : α) := by
  have h : n ≤ 20 * ((n + 19) / 20) := by omega
  rw [div_le_iff (by norm_num : (0 : α) < 20)]
  calc (n : α) ≤ ((20 * ((n + 19) / 20) : ℕ) : α) := by exact_mod_cast h
    _ = (((n + 19) / 20 : ℕ) : α) * 20 := by push_cast; ring

/-- C5: every candidate index emitted by RadialPeakStrategy's find_peaks call
on the smoothed radial-distance signal satisfies the claimed conditions: the
smoothed signal is exactly the window-21 circular moving average of the raw
signal; the accepted index is a local maximum of the smoothed signal (an
interior index whose neighbours are not larger); its smoothed height is at
least palmRadius * 1.4; and it is at least contourLength/20 samples away from
every other accepted peak. -/
theorem C5_emitted_peak_conditions (s : List α) (palmR : α) (p : ℕ)
    (hn : 10 ≤ s.length)
    (hp : p ∈ findPeaksFull (smooth s) (palmR * (7 / 5)) ((s.length + 19) / 20)) :
    (∀ i < s.length, (smooth s).getD i 0 =
        ((List.range 21).map
          (fun j => s.getD ((i + j + s.length - 10) % s.length) 0)).sum / 21) ∧
      (0 < p ∧ p + 1 < (smooth s).length ∧
        (smooth s).getD (p - 1) 0 ≤ (smooth s).getD p 0 ∧
        (smooth s).getD (p + 1) 0 ≤ (smooth s).getD p 0) ∧
      palmR * (7 / 5) ≤ (smooth s).getD p 0 ∧
      ∀ q ∈ findPeaksFull (smooth s) (palmR * (7 / 5)) ((s.length + 19) / 20),
        q ≠ p → (s.length : α) / 20 ≤ |(p : α) - (q : α)| := by
  unfold findPeaksFull at hp
  have hpH := selectByDistance_subset _ _ _ p hp
  have hpM := heightFiltered_mem _ _ _ p hpH
  refine ⟨fun i hi => smooth_getD s hn i hi, ?_, hpM.2, ?_⟩
  · exact localMaxima_isLocalMax (smooth s) p hpM.1
  · intro q hq hqp
    unfold findPeaksFull at hq
    have hsep := selectByDistance_sep (smooth s) ((s.length + 19) / 20) _ p hp q hq hqp
    calc (s.length : α) / 20 ≤ (((s.length + 19) / 20 : ℕ) : α) := ceil_div20_cast_ge _
      _ ≤ ((Nat.dist q p : ℕ) : α) := by exact_mod_cast hsep
      _ = |(p : α) - (q : α)| := natDist_cast_eq_abs p q

end Detect

theorem spike_smooth_eval :
    Detect.smooth ([0, 0, 21, 0, 0, 0, 0, 0, 0, 0] : List ℚ) =
      ([2, 2, 3, 2, 2, 2, 2, 2, 2, 2] : List ℚ) := by
  unfold Detect.smooth Detect.padWrap
  norm_num [List.range_succ]

theorem spike_localMaxima_eval :
    Detect.localMaxima ([2, 2, 3, 2, 2, 2, 2, 2, 2, 2] : List ℚ) = [2] := by
  show Detect.localMaxFrom ([2, 2, 3, 2, 2, 2, 2, 2, 2, 2] : List ℚ) 9 1 = [2]
  have e1 : Detect.localMaxFrom ([2, 2, 3, 2, 2, 2, 2, 2, 2, 2] : List ℚ) 9 1 =
      Detect.localMaxFrom ([2, 2, 3, 2, 2, 2, 2, 2, 2, 2] : List ℚ) 9 2 := by
    rw [Detect.localMaxFrom.eq_def]
    norm_num
  have hpe : Detect.plateauEnd ([2, 2, 3, 2, 2, 2, 2, 2, 2, 2] : List ℚ)
      (([2, 2, 3, 2, 2, 2, 2, 2, 2, 2] : List ℚ).getD 2 0) 9 (2 + 1) = 3 := by decide
  have e2 : Detect.localMaxFrom ([2, 2, 3, 2, 2, 2, 2, 2, 2, 2] : List ℚ) 9 2 =
      2 :: Detect.localMaxFrom ([2, 2, 3, 2, 2, 2, 2, 2, 2, 2] : List ℚ) 9 4 := by
    rw [Detect.localMaxFrom.eq_def]
    simp only [hpe]
    norm_num
  have e3 : Detect.localMaxFrom ([2, 2, 3, 2, 2, 2, 2, 2, 2, 2] : List ℚ) 9 4 =
      Detect.localMaxFrom ([2, 2, 3, 2, 2, 2, 2, 2, 2, 2] : List ℚ) 9 5 := by
    rw [Detect.localMaxFrom.eq_def]
    norm_num
  have e4 : Detect.localMaxFrom ([2, 2, 3, 2, 2, 2, 2, 2, 2, 2] : List ℚ) 9 5 =
      Detect.localMaxFrom ([2, 2, 3, 2, 2, 2, 2, 2, 2, 2] : List ℚ) 9 6 := by
    rw [Detect.localMaxFrom.eq_def]
    norm_num
  have e5 : Detect.localMaxFrom ([2, 2, 3, 2, 2, 2, 2, 2, 2, 2] : List ℚ) 9 6 =
      Detect.localMaxFrom ([2, 2, 3, 2, 2, 2, 2, 2, 2, 2] : List ℚ) 9 7 := by
    rw [Detect.localMaxFrom.eq_def]
    norm_num
  have e6 : Detect.localMaxFrom ([2, 2, 3, 2, 2, 2, 2, 2, 2, 2] : List ℚ) 9 7 =
      Detect.localMaxFrom ([2, 2, 3, 2, 2, 2, 2, 2, 2, 2] : List ℚ) 9 8 := by
    rw [Detect.localMaxFrom.eq_def]
    norm_num
  have e7 : Detect.localMaxFrom ([2, 2, 3, 2, 2, 2, 2, 2, 2, 2] : List ℚ) 9 8 =
      Detect.localMaxFrom ([2, 2, 3, 2, 2, 2, 2, 2, 2, 2] : List ℚ) 9 9 := by
    rw [Detect.localMaxFrom.eq_def]
    norm_num
  have e8 : Detect.localMaxFrom ([2, 2, 3, 2, 2, 2, 2, 2, 2, 2] : List ℚ) 9 9 = [] := by
    rw [Detect.localMaxFrom.eq_def]
    norm_num
  rw [e1, e2, e3, e4, e5, e6, e7, e8]

theorem spike_findPeaks_eval :
    Detect.findPeaksFull (Detect.smooth ([0, 0, 21, 0, 0, 0, 0, 0, 0, 0] : List ℚ))
      ((0 : ℚ) * (7 / 5))
      ((([0, 0, 21, 0, 0, 0, 0, 0, 0, 0] : List ℚ).length + 19) / 20) = [2] := by
  rw [spike_smooth_eval]
  show Detect.findPeaksFull ([2, 2, 3, 2, 2, 2, 2, 2, 2, 2] : List ℚ)
    ((0 : ℚ) * (7 / 5)) 1 = [2]
  unfold Detect.findPeaksFull
  rw [spike_localMaxima_eval]
  have hh : Detect.heightFiltered ([2, 2, 3, 2, 2, 2, 2, 2, 2, 2] : List ℚ)
      ((0 : ℚ) * (7 / 5)) [2] = [2] := by
    unfold Detect.heightFiltered
    norm_num
  rw [hh]
  unfold Detect.selectByDistance
  norm_num [Detect.pruneAux, List.insertionSort, List.orderedInsert]

/-- Witness for C5_emitted_peak_conditions on a concrete 10-sample spike
signal whose smoothed form has one peak at index 2. -/
theorem C5_emitted_peak_conditions_witness :
    (10 ≤ ([0, 0, 21, 0, 0, 0, 0, 0, 0, 0] : List ℚ).length ∧
      2 ∈ Detect.findPeaksFull (Detect.smooth ([0, 0, 21, 0, 0, 0, 0, 0, 0, 0] : List ℚ))
        ((0 : ℚ) * (7 / 5))
        ((([0, 0, 21, 0, 0, 0, 0, 0, 0, 0] : List ℚ).length + 19) / 20)) ∧
      (0 : ℚ) * (7 / 5) ≤
        (Detect.smooth ([0, 0, 21, 0, 0, 0, 0, 0, 0, 0] : List ℚ)).getD 2 0 :=
  ⟨⟨by decide, by rw [spike_findPeaks_eval]; exact List.mem_singleton.mpr rfl⟩,
    (Detect.C5_emitted_peak_conditions ([0, 0, 21, 0, 0, 0, 0, 0, 0, 0] : List ℚ) 0 2
      (by decide)
      (by rw [spike_findPeaks_eval]; exact List.mem_singleton.mpr rfl)).2.2.1⟩
